import Mathlib

/-!
# Verification of the flash-freeze core (deep freeze / deep-frozen predicate / deep clone)

Shallow embedding of the runtime behaviour of the flash-freeze library
(`src/freeze.ts`, `src/validation.ts`, `src/copy.ts`).

The JavaScript object graph is modelled explicitly: a `Heap` maps numeric
addresses to object data, and `JSVal` is either a primitive or a reference
into the heap.  `Object.freeze` is modelled as adding an address to the
heap's set of frozen addresses (`frozenA`); "single-level frozen" — the
container rejects property addition, deletion and reassignment — is exactly
membership in that set.

Modelling notes (fragment covered, matching the source being verified):
* Properties are data properties; accessor (getter/setter) properties and
  exceptions raised on property access are outside the model, so the
  source's try/catch "skip this property" branches are identity here.
* Prototype chains are not modelled; the `isFreezable` capability check
  (`"freeze" in value`) covers own properties of plain and custom-prototype
  objects.
* The recursive traversals of the source (`isFrozenImpl`,
  `findUnfrozenPathImpl`, `deepClone`) are embedded with an explicit fuel
  parameter that decreases exactly once per nested (recursive) call, so the
  fuel needed by a run equals the native call-stack depth the source would
  use.  The iterative traversal (`freeze`) is embedded as a worklist loop
  whose fuel counts loop iterations (the source's `while` loop), not nested
  calls.
-/

set_option maxHeartbeats 1000000

namespace FlashFreeze

/-- A JavaScript value: a primitive or a reference to a heap object.
`vNum` models JS numbers (only used as opaque scalars here), `vSym` a
unique symbol identified by a numeric id. -/
inductive JSVal where
  | vNull
  | vUndef
  | vBoolV (b : Bool)
  | vNum (n : Int)
  | vBig (n : Int)
  | vStr (s : String)
  | vSym (id : Nat)
  | vRef (a : Nat)
deriving DecidableEq, Repr

/-- One own string-keyed data property of an object: key, enumerability
flag, and value.  (`Object.keys` sees only enumerable properties;
`Object.getOwnPropertyNames` sees all of them.) -/
structure StrProp where
  name : String
  enumerable : Bool
  value : JSVal
deriving DecidableEq, Repr

/-- The data of one heap object, by shape:
array, plain object (prototype `Object.prototype` or `null`, recorded by
`protoNull`), `Map`, `Set`, `Date`, `RegExp`, callable (function), or an
object with a custom prototype (identified by `protoId`).
String-keyed properties carry enumerability; symbol-keyed properties are
keyed by symbol id. -/
inductive ObjData where
  | arrObj (elems : List JSVal)
  | plainObj (protoNull : Bool) (sprops : List StrProp) (symprops : List (Nat × JSVal))
  | mapObj (entries : List (JSVal × JSVal))
  | setObj (elems : List JSVal)
  | dateObj (time : Int)
  | regexpObj (source : String) (flags : String)
  | funcObj (sprops : List StrProp) (symprops : List (Nat × JSVal))
  | customObj (protoId : Nat) (sprops : List StrProp) (symprops : List (Nat × JSVal))
deriving DecidableEq, Repr

/-- The runtime heap: objects by address, plus the set of addresses on
which `Object.freeze` has been applied (the single-level-frozen objects). -/
structure Heap where
  objs : List (Nat × ObjData)
  frozenA : List Nat
deriving DecidableEq, Repr

/-- Address lookup in an object list (first match wins, like a JS heap
with distinct addresses). -/
def lookupA (a : Nat) : List (Nat × ObjData) → Option ObjData
  | [] => none
  | p :: rest => if a = p.1 then some p.2 else lookupA a rest

/-- The addresses present in an object list. -/
def domA (objs : List (Nat × ObjData)) : List Nat := objs.map Prod.fst

/-- Does address `a` hold a callable?  (`typeof` of its references is
`"function"`.) -/
def isFuncAddr (objs : List (Nat × ObjData)) (a : Nat) : Bool :=
  match lookupA a objs with
  | some (.funcObj _ _) => true
  | _ => false

/-- `value !== null && value !== undefined && typeof value === "object"`:
the filter every push site of the freeze engine applies to a child before
scheduling it.  Returns the address when the child passes. -/
def objRef? (objs : List (Nat × ObjData)) (v : JSVal) : Option Nat :=
  match v with
  | .vRef a => if isFuncAddr objs a then none else some a
  | _ => none

/-- `Object.isFrozen` on a reference; primitives are inherently immutable.
This is the source's `isShallowFrozen` ("single-level frozen"). -/
def isShallowFrozen (h : Heap) (v : JSVal) : Bool :=
  match v with
  | .vRef a => a ∈ h.frozenA
  | _ => true

/-- The children the freeze engine pushes for one node, in push order
(source `freeze`, per-shape branches):
arrays push `object`-typed elements; plain objects push `Object.keys`
(enumerable string) values then symbol-keyed values; Maps push each key
then each value; Sets push members; Date/RegExp push nothing; functions
and custom-prototype objects push `Object.getOwnPropertyNames` (all
string-keyed) values then symbol-keyed values. -/
def freezeChildren (objs : List (Nat × ObjData)) : ObjData → List Nat
  | .arrObj elems => elems.filterMap (objRef? objs)
  | .plainObj _ sprops symprops =>
      ((sprops.filter (·.enumerable)).map (·.value)).filterMap (objRef? objs) ++
        (symprops.map Prod.snd).filterMap (objRef? objs)
  | .mapObj entries =>
      (entries.flatMap (fun kv => [kv.1, kv.2])).filterMap (objRef? objs)
  | .setObj elems => elems.filterMap (objRef? objs)
  | .dateObj _ => []
  | .regexpObj _ _ => []
  | .funcObj sprops symprops =>
      (sprops.map (·.value)).filterMap (objRef? objs) ++
        (symprops.map Prod.snd).filterMap (objRef? objs)
  | .customObj _ sprops symprops =>
      (sprops.map (·.value)).filterMap (objRef? objs) ++
        (symprops.map Prod.snd).filterMap (objRef? objs)

/-- The worklist loop of the source's `freeze`: pop a node; skip it when
already visited or already frozen; otherwise mark it visited, push its
children, and apply the single-level freeze.  Fuel bounds the number of
loop iterations (the loop is not recursive; see `freezeFuel`).
Returns the final (visited, frozen) lists. -/
def freezeLoopF (objs : List (Nat × ObjData)) :
    Nat → List Nat → List Nat → List Nat → Option (List Nat × List Nat)
  | 0, _, _, _ => none
  | _ + 1, [], vis, fr => some (vis, fr)
  | fuel + 1, a :: rest, vis, fr =>
    if a ∈ vis ∨ a ∈ fr then
      freezeLoopF objs fuel rest vis fr
    else
      match lookupA a objs with
      | none => freezeLoopF objs fuel rest vis fr
      | some od =>
          freezeLoopF objs fuel ((freezeChildren objs od).reverse ++ rest)
            (a :: vis) (a :: fr)

/-- Enough loop iterations for `freezeLoopF` never to run out: the
initial stack plus, for every heap entry, one pop and its pushes. -/
def freezeFuel (objs : List (Nat × ObjData)) (stack : List Nat) : Nat :=
  stack.length +
    (objs.map (fun p => 1 + (freezeChildren objs p.2).length)).sum + 1

/-- The source's `isFreezable` duck-type check on a reference:
non-null, `typeof value === "object"` (so callables fail), with a
callable `freeze` member. -/
def isFreezableB (h : Heap) (a : Nat) : Bool :=
  match lookupA a h.objs with
  | some (.plainObj _ sprops _) =>
      (match sprops.find? (fun p => p.name = "freeze") with
      | some p =>
          (match p.value with
          | .vRef b => isFuncAddr h.objs b
          | _ => false)
      | none => false)
  | some (.customObj _ sprops _) =>
      (match sprops.find? (fun p => p.name = "freeze") with
      | some p =>
          (match p.value with
          | .vRef b => isFuncAddr h.objs b
          | _ => false)
      | none => false)
  | _ => false

/-- The source's `freeze`: primitives pass through; an already (single
level) frozen object returns at once; a `Freezable` object delegates to
its own `freeze()` — external code, modelled as `none`; otherwise the
worklist traversal runs and the same reference is returned with every
processed node frozen.  `some h'` is the heap after the call (the value
returned by the source is the argument itself). -/
def freeze (h : Heap) (v : JSVal) : Option Heap :=
  match v with
  | .vRef a =>
    if a ∈ h.frozenA then some h
    else if isFreezableB h a then none
    else
      match freezeLoopF h.objs (freezeFuel h.objs [a]) [a] [] h.frozenA with
      | some (_, fr) => some { h with frozenA := fr }
      | none => none
  | _ => some h

/-- Which branch of `freeze` handles a call: the primitive early return,
the already-frozen fast path, delegation to a `Freezable`, or the
worklist traversal. -/
inductive FreezeStep where
  | primP
  | fastP
  | delegateP
  | loopP
deriving DecidableEq, Repr

/-- The branch `freeze` takes on a given input (mirrors the order of the
checks in the source). -/
def freezeDisp (h : Heap) (v : JSVal) : FreezeStep :=
  match v with
  | .vRef a =>
    if a ∈ h.frozenA then .fastP
    else if isFreezableB h a then .delegateP
    else .loopP
  | _ => .primP

/-- The children the deep-frozen predicate examines for one node, as
values, in examination order (source `isFrozenImpl`, per-shape branches):
array elements; Map entries key-then-value; Set members; and for every
other object (plain, custom prototype, function, Date, RegExp) the values
of `Object.getOwnPropertyNames` — all own string-keyed properties,
enumerable or not.  Symbol-keyed properties are not examined by the
source. -/
def isFrozenChildren : ObjData → List JSVal
  | .arrObj elems => elems
  | .mapObj entries => entries.flatMap (fun kv => [kv.1, kv.2])
  | .setObj elems => elems
  | .plainObj _ sprops _ => sprops.map (·.value)
  | .customObj _ sprops _ => sprops.map (·.value)
  | .funcObj sprops _ => sprops.map (·.value)
  | .dateObj _ => []
  | .regexpObj _ _ => []

/-- Run a short-circuiting boolean check over a list, threading the
visited set: the source's per-shape `for` loops, which stop at the first
child reported unfrozen.  The outer `Option` propagates fuel
exhaustion. -/
def seqCheck (step : JSVal → List Nat → Option (Bool × List Nat)) :
    List JSVal → List Nat → Option (Bool × List Nat)
  | [], vis => some (true, vis)
  | c :: cs, vis =>
    match step c vis with
    | none => none
    | some (false, vis') => some (false, vis')
    | some (true, vis') => seqCheck step cs vis'

/-- The source's recursive `isFrozenImpl` with the shared visited set
threaded through.  Fuel decreases once per nested recursive call, so a
run returns `none` exactly when the source would need native call-stack
depth larger than the fuel.  Returns the boolean result and the final
visited set. -/
def isFrozenImplF (h : Heap) : Nat → JSVal → List Nat → Option (Bool × List Nat)
  | 0, _, _ => none
  | fuel + 1, v, vis =>
    match v with
    | .vRef a =>
      if a ∈ vis then some (true, vis)
      else if a ∈ h.frozenA then
        match lookupA a h.objs with
        | none => some (true, a :: vis)
        | some od => seqCheck (isFrozenImplF h fuel) (isFrozenChildren od) (a :: vis)
      else some (false, vis)
    | _ => some (true, vis)

/-- The source's `isFrozen` (deep-frozen predicate): run `isFrozenImpl`
with a fresh visited set.  The fuel `h.objs.length + 2` always suffices
(every nested call first adds a new heap address to the visited set), so
the default branch is never taken; this is proved in
`isFrozenImplF_fuel_sufficient`. -/
def isFrozenB (h : Heap) (v : JSVal) : Bool :=
  match isFrozenImplF h (h.objs.length + 2) v [] with
  | some (b, _) => b
  | none => true

/-- `String(key)` for the values that can appear as Map keys in the
model (used only to render a path component). -/
def jsDisplay : JSVal → String
  | .vNull => "null"
  | .vUndef => "undefined"
  | .vBoolV b => if b then "true" else "false"
  | .vNum n => toString n
  | .vBig n => toString n
  | .vStr s => s
  | .vSym i => "Symbol(" ++ toString i ++ ")"
  | .vRef _ => "[object Object]"

/-- The children of one node paired with their display paths, in the
source's order: `path[i]` for array indices, `path.keys()[i]` /
`path.get(String(key))` for Map entries, `path.values()[i]` for Set
members, and dotted own-property names for every other object (with the
leading dot dropped at the root). -/
def pathChildren (od : ObjData) (path : String) : List (JSVal × String) :=
  match od with
  | .arrObj elems =>
      (elems.enum).map (fun ci =>
        (ci.2, if path = "" then "[" ++ toString ci.1 ++ "]"
               else path ++ "[" ++ toString ci.1 ++ "]"))
  | .mapObj entries =>
      (entries.enum).flatMap (fun kvi =>
        [(kvi.2.1, if path = "" then "keys()[" ++ toString kvi.1 ++ "]"
                   else path ++ ".keys()[" ++ toString kvi.1 ++ "]"),
         (kvi.2.2, if path = "" then "get(" ++ jsDisplay kvi.2.1 ++ ")"
                   else path ++ ".get(" ++ jsDisplay kvi.2.1 ++ ")")])
  | .setObj elems =>
      (elems.enum).map (fun ci =>
        (ci.2, if path = "" then "values()[" ++ toString ci.1 ++ "]"
               else path ++ ".values()[" ++ toString ci.1 ++ "]"))
  | .plainObj _ sprops _ =>
      sprops.map (fun p => (p.value, if path = "" then p.name else path ++ "." ++ p.name))
  | .customObj _ sprops _ =>
      sprops.map (fun p => (p.value, if path = "" then p.name else path ++ "." ++ p.name))
  | .funcObj sprops _ =>
      sprops.map (fun p => (p.value, if path = "" then p.name else path ++ "." ++ p.name))
  | .dateObj _ => []
  | .regexpObj _ _ => []

/-- Run a first-result search over (child, child-path) pairs in order,
threading the visited set; stops at the first path found. -/
def seqFind (step : JSVal → String → List Nat → Option (Option String × List Nat)) :
    List (JSVal × String) → List Nat → Option (Option String × List Nat)
  | [], vis => some (none, vis)
  | c :: cs, vis =>
    match step c.1 c.2 vis with
    | none => none
    | some (some p, vis') => some (some p, vis')
    | some (none, vis') => seqFind step cs vis'

/-- The source's recursive `findUnfrozenPathImpl`: same traversal shape
and child relation as `isFrozenImpl`, accumulating a path string; returns
the path of the first single-level-unfrozen node, in self-then-children
order, or `none` when everything examined is frozen.  Fuel counts nested
calls, as in `isFrozenImplF`; the outer `Option` is fuel exhaustion, the
inner one the source's `string | null` result, and the visited set is
threaded. -/
def findPathImplF (h : Heap) : Nat → JSVal → String → List Nat →
    Option (Option String × List Nat)
  | 0, _, _, _ => none
  | fuel + 1, v, path, vis =>
    match v with
    | .vRef a =>
      if a ∈ vis then some (none, vis)
      else if a ∈ h.frozenA then
        match lookupA a h.objs with
        | none => some (none, a :: vis)
        | some od => seqFind (findPathImplF h fuel) (pathChildren od path) (a :: vis)
      else some (some (if path = "" then "(root)" else path), vis)
    | _ => some (none, vis)

/-- The source's `findUnfrozenPath`: fresh visited set, empty path.
The same fuel bound as for `isFrozenB` suffices. -/
def findUnfrozenPath (h : Heap) (v : JSVal) : Option String :=
  match findPathImplF h (h.objs.length + 2) v "" [] with
  | some (r, _) => r
  | none => none

/-- The source's `FrozenAssertionError`: a message and the offending
value (the optional path field is never set by the assertion helpers). -/
structure FrozenAssertionError where
  message : String
  value : JSVal
deriving DecidableEq, Repr

/-- The source's `assertFrozen`: raise a `FrozenAssertionError` carrying
the value and a message naming `name` when the deep-frozen predicate
fails; no-op otherwise. -/
def assertFrozen (h : Heap) (v : JSVal) (name : String) :
    Except FrozenAssertionError Unit :=
  if isFrozenB h v then .ok ()
  else .error
    { message := "Expected " ++ name ++ " to be deeply frozen, but it is not. " ++
        "Use freeze() or frozenCopy() to create immutable data."
      value := v }

/-- `typeof value === "object"` together with `value !== null` (the
guard of the source's `assertMutable`); callables are typeof
`"function"` and primitives fail the check. -/
def typeofIsObject (h : Heap) (v : JSVal) : Bool :=
  match v with
  | .vRef a => !isFuncAddr h.objs a
  | _ => false

/-- The source's `assertMutable`: raise the same error kind when the
value is a non-null object that is single-level frozen. -/
def assertMutable (h : Heap) (v : JSVal) (name : String) :
    Except FrozenAssertionError Unit :=
  if typeofIsObject h v && isShallowFrozen h v then .error
    { message := "Expected " ++ name ++ " to be mutable, but it is frozen. " ++
        "Create a mutable copy if you need to modify it."
      value := v }
  else .ok ()

/-- First unused address: clones are allocated at addresses strictly
above every existing one. -/
def freshA (h : Heap) : Nat := (domA h.objs).foldr max 0 + 1

/-- The mutable state threaded through a deep-clone run: the cycle map
(`visited`: source address to clone address), the newly allocated
objects (most recent first), and the next fresh address. -/
structure CloneSt where
  cmap : List (Nat × Nat)
  acc : List (Nat × ObjData)
  fresh : Nat
deriving DecidableEq, Repr

/-- Clone each list element in order, threading the clone state (the
source's `for` loops over elements / entries / property lists). -/
def stMapM {α β : Type} (step : α → CloneSt → Option (β × CloneSt)) :
    List α → CloneSt → Option (List β × CloneSt)
  | [], st => some ([], st)
  | x :: xs, st =>
    match step x st with
    | none => none
    | some (y, st') =>
      match stMapM step xs st' with
      | none => none
      | some (ys, st'') => some (y :: ys, st'')

/-- The source's recursive `deepClone` with the clone state threaded
through.  Primitives pass through; functions pass through by identity; a
source reference already in the cycle map resolves to its recorded
clone; Date/RegExp are re-wrapped from their scalar state (and, like the
source, are never put in the cycle map); containers record their clone
address in the map *before* their children are cloned.  Plain objects
are rebuilt from their enumerable string-keyed properties (by
assignment, so the copies are enumerable) plus their symbol-keyed
properties; custom-prototype objects keep their prototype and copy every
own property descriptor, preserving enumerability.  Fuel counts nested
recursive calls, as in `isFrozenImplF`. -/
def deepCloneF (h : Heap) : Nat → JSVal → CloneSt → Option (JSVal × CloneSt)
  | 0, _, _ => none
  | fuel + 1, v, st =>
    match v with
    | .vRef a =>
      match lookupA a h.objs with
      | none => some (.vRef a, st)
      | some (.funcObj _ _) => some (.vRef a, st)
      | some od =>
        match st.cmap.lookup a with
        | some d => some (.vRef d, st)
        | none =>
          match od with
          | .dateObj t =>
              some (.vRef st.fresh,
                ⟨st.cmap, (st.fresh, .dateObj t) :: st.acc, st.fresh + 1⟩)
          | .regexpObj src fl =>
              some (.vRef st.fresh,
                ⟨st.cmap, (st.fresh, .regexpObj src fl) :: st.acc, st.fresh + 1⟩)
          | .arrObj elems =>
            (stMapM (deepCloneF h fuel) elems
                ⟨(a, st.fresh) :: st.cmap, st.acc, st.fresh + 1⟩).map
              (fun r => (.vRef st.fresh,
                ⟨r.2.cmap, (st.fresh, .arrObj r.1) :: r.2.acc, r.2.fresh⟩))
          | .mapObj entries =>
            (stMapM
                (fun kv st0 =>
                  match deepCloneF h fuel kv.1 st0 with
                  | none => none
                  | some (k', st1) =>
                    match deepCloneF h fuel kv.2 st1 with
                    | none => none
                    | some (v', st2) => some ((k', v'), st2))
                entries ⟨(a, st.fresh) :: st.cmap, st.acc, st.fresh + 1⟩).map
              (fun r => (.vRef st.fresh,
                ⟨r.2.cmap, (st.fresh, .mapObj r.1) :: r.2.acc, r.2.fresh⟩))
          | .setObj elems =>
            (stMapM (deepCloneF h fuel) elems
                ⟨(a, st.fresh) :: st.cmap, st.acc, st.fresh + 1⟩).map
              (fun r => (.vRef st.fresh,
                ⟨r.2.cmap, (st.fresh, .setObj r.1) :: r.2.acc, r.2.fresh⟩))
          | .plainObj protoNull sprops symprops =>
            match stMapM
                (fun p st0 =>
                  (deepCloneF h fuel p.value st0).map
                    (fun r => ((⟨p.name, true, r.1⟩ : StrProp), r.2)))
                (sprops.filter (·.enumerable))
                ⟨(a, st.fresh) :: st.cmap, st.acc, st.fresh + 1⟩ with
            | none => none
            | some (sprops', st1) =>
              (stMapM
                  (fun sv st0 =>
                    (deepCloneF h fuel sv.2 st0).map (fun r => ((sv.1, r.1), r.2)))
                  symprops st1).map
                (fun r => (.vRef st.fresh,
                  ⟨r.2.cmap, (st.fresh, .plainObj protoNull sprops' r.1) :: r.2.acc,
                    r.2.fresh⟩))
          | .customObj protoId sprops symprops =>
            match stMapM
                (fun p st0 =>
                  (deepCloneF h fuel p.value st0).map
                    (fun r => ((⟨p.name, p.enumerable, r.1⟩ : StrProp), r.2)))
                sprops ⟨(a, st.fresh) :: st.cmap, st.acc, st.fresh + 1⟩ with
            | none => none
            | some (sprops', st1) =>
              (stMapM
                  (fun sv st0 =>
                    (deepCloneF h fuel sv.2 st0).map (fun r => ((sv.1, r.1), r.2)))
                  symprops st1).map
                (fun r => (.vRef st.fresh,
                  ⟨r.2.cmap, (st.fresh, .customObj protoId sprops' r.1) :: r.2.acc,
                    r.2.fresh⟩))
          | .funcObj _ _ => some (.vRef a, st)
    | _ => some (v, st)


/-- The source's `frozenCopy`: deep-clone the value (fresh visited map,
allocating above every existing address), then `freeze` the clone.
Returns the heap after both steps and the cloned root value; `none` when
the clone runs out of fuel (never on a well-formed heap) or the freeze
of the clone delegates to external code. -/
def frozenCopy (h : Heap) (v : JSVal) : Option (Heap × JSVal) :=
  match deepCloneF h (h.objs.length + 2) v ⟨[], [], freshA h⟩ with
  | none => none
  | some (v', st) =>
    match freeze ⟨h.objs ++ st.acc.reverse, h.frozenA⟩ v' with
    | some h' => some (h', v')
    | none => none

/-- Reachability along the freeze engine's push relation: `ReachP objs a b`
holds when `b` can be reached from `a` by repeatedly following children
the engine would push (`freezeChildren`). -/
inductive ReachP (objs : List (Nat × ObjData)) : Nat → Nat → Prop
  | refl (a : Nat) : ReachP objs a a
  | step (a : Nat) (od : ObjData) (c b : Nat) :
      lookupA a objs = some od → c ∈ freezeChildren objs od →
      ReachP objs c b → ReachP objs a b

/-- Reachability along the freeze engine's push relation that never
descends out of a node that is already in `f0` (the set of addresses
frozen before the call): the engine skips an already-frozen node without
scheduling its children, so these are exactly the nodes its traversal
can still reach. -/
inductive ReachU (objs : List (Nat × ObjData)) (f0 : List Nat) : Nat → Nat → Prop
  | refl (a : Nat) : ReachU objs f0 a a
  | step (a : Nat) (od : ObjData) (c b : Nat) :
      a ∉ f0 → lookupA a objs = some od → c ∈ freezeChildren objs od →
      ReachU objs f0 c b → ReachU objs f0 a b

/-- Reachability along the deep-frozen predicate's child relation:
`ReachIF h v b` holds when the address `b` can be reached from the value
`v` by repeatedly following `isFrozenChildren` (array elements, Map keys
and values, Set members, and all own string-keyed property values — no
symbol-keyed properties). -/
inductive ReachIF (h : Heap) : JSVal → Nat → Prop
  | here (a : Nat) : ReachIF h (.vRef a) a
  | child (a : Nat) (od : ObjData) (c : JSVal) (b : Nat) :
      lookupA a h.objs = some od → c ∈ isFrozenChildren od →
      ReachIF h c b → ReachIF h (.vRef a) b

/-- No callable object anywhere in the heap. -/
def funcFree (h : Heap) : Bool :=
  h.objs.all (fun p =>
    match p.2 with
    | .funcObj _ _ => false
    | _ => true)

/-- Every address recorded as frozen is the address of a heap object. -/
def wfFrozen (h : Heap) : Bool :=
  h.frozenA.all (fun x => (lookupA x h.objs).isSome)

/-- A linear chain of `n` single-property plain objects at addresses
`i, i+1, ..., i+n-1`: each node's `child` property references the next,
and the last holds a number (the spec's depth-safety family). -/
def chainObjsAux (i : Nat) : Nat → List (Nat × ObjData)
  | 0 => []
  | k + 1 =>
      (i, .plainObj false
        [⟨"child", true, if k = 0 then .vNum 0 else .vRef (i + 1)⟩] []) ::
        chainObjsAux (i + 1) k

/-- The chain heap rooted at address 0, fully unfrozen. -/
def chainH (n : Nat) : Heap := ⟨chainObjsAux 0 n, []⟩

/-- The chain heap with every node already single-level frozen (the
input on which the deep-frozen predicate must walk the whole chain). -/
def chainHF (n : Nat) : Heap := ⟨chainObjsAux 0 n, List.range n⟩

/-- C1 example: root `{a: mid}`, where `mid = {b: leaf}` was already
single-level frozen before the call and `leaf = {}` was not. -/
def hPreFrozenMid : Heap :=
  ⟨[(0, .plainObj false [⟨"a", true, .vRef 1⟩] []),
    (1, .plainObj false [⟨"b", true, .vRef 2⟩] []),
    (2, .plainObj false [] [])], [1]⟩

/-- C3 example: root `{child: c}` where `c = {freeze: f, data: d}`
declares the custom freeze capability (`f` is callable) and owns a
further container `d`. -/
def hFreezableChild : Heap :=
  ⟨[(0, .plainObj false [⟨"child", true, .vRef 1⟩] []),
    (1, .plainObj false [⟨"freeze", true, .vRef 2⟩, ⟨"data", true, .vRef 3⟩] []),
    (2, .funcObj [] []),
    (3, .plainObj false [] [])], []⟩

/-- C4 example: a single-level-frozen plain object whose only child — an
unfrozen plain object — sits under a symbol key. -/
def hSymOnly : Heap :=
  ⟨[(0, .plainObj false [] [(7, .vRef 1)]),
    (1, .plainObj false [] [])], [0]⟩

/-- C7 example: a callable at address 0 whose `prototype` own property
(non-enumerable, as on real functions) holds a plain object. -/
def hFnRoot : Heap :=
  ⟨[(0, .funcObj [⟨"prototype", false, .vRef 1⟩] []),
    (1, .plainObj false [] [])], []⟩

/-- C8/C10 example: `{f: fn}` with `fn` an (unfrozen) callable. -/
def hFnProp : Heap :=
  ⟨[(0, .plainObj false [⟨"f", true, .vRef 1⟩] []),
    (1, .funcObj [] [])], []⟩

/-- C8 example: `{a: {x: 1}, b: {y: 2}}` with the root and `a` frozen
and `b` not. -/
def hPathPlain : Heap :=
  ⟨[(0, .plainObj false [⟨"a", true, .vRef 1⟩, ⟨"b", true, .vRef 2⟩] []),
    (1, .plainObj false [⟨"x", true, .vNum 1⟩] []),
    (2, .plainObj false [⟨"y", true, .vNum 2⟩] [])], [0, 1]⟩

/-- C8 example: the same shape with every container frozen. -/
def hPathAllFrozen : Heap := ⟨hPathPlain.objs, [0, 1, 2]⟩

/-- C8 example: `{arr: [{ok: true}, {notFrozen: true}]}` with the root,
the array and element 0 frozen and element 1 not. -/
def hPathArr : Heap :=
  ⟨[(0, .plainObj false [⟨"arr", true, .vRef 1⟩] []),
    (1, .arrObj [.vRef 2, .vRef 3]),
    (2, .plainObj false [⟨"ok", true, .vBoolV true⟩] []),
    (3, .plainObj false [⟨"notFrozen", true, .vBoolV true⟩] [])], [0, 1, 2]⟩

/-- C8 example: `outer = {nested: {mutable: true}}` with only the outer
level frozen. -/
def hPathNested : Heap :=
  ⟨[(0, .plainObj false [⟨"nested", true, .vRef 1⟩] []),
    (1, .plainObj false [⟨"mutable", true, .vBoolV true⟩] [])], [0]⟩

/-- C5/C6 example: `{a: 1, nested: {value: 10}}`, nothing frozen. -/
def hCopyEx : Heap :=
  ⟨[(0, .plainObj false [⟨"a", true, .vNum 1⟩, ⟨"nested", true, .vRef 1⟩] []),
    (1, .plainObj false [⟨"value", true, .vRef 2⟩] []),
    (2, .plainObj false [] [])], []⟩

/-- The heap `frozenCopy hCopyEx (.vRef 0)` returns: the source objects
unchanged, the three clone objects at the fresh addresses 3, 4, 5, and
exactly the clone region frozen. -/
def hCopyClone : Heap :=
  ⟨hCopyEx.objs ++
    [(5, .plainObj false [] []),
     (4, .plainObj false [⟨"value", true, .vRef 5⟩] []),
     (3, .plainObj false [⟨"a", true, .vNum 1⟩, ⟨"nested", true, .vRef 4⟩] [])],
   [5, 4, 3]⟩

/-- Remaining workload bound for the freeze loop: one pop plus the pushes
of every not-yet-visited heap entry. -/
def pendingCost (objs : List (Nat × ObjData)) (vis : List Nat) : Nat :=
  ((objs.filter (fun p => p.1 ∉ vis)).map
    (fun p => 1 + (freezeChildren objs p.2).length)).sum

/-- Number of heap entries whose address is not yet visited (bounds the
nesting depth still available to the recursive traversals). -/
def unvisCount (objs : List (Nat × ObjData)) (vis : List Nat) : Nat :=
  (objs.filter (fun p => p.1 ∉ vis)).length

/-- Every child value stored in an object, in some order (used to state
invariants about cloned objects). -/
def entryVals : ObjData → List JSVal
  | .arrObj elems => elems
  | .mapObj entries => entries.flatMap (fun kv => [kv.1, kv.2])
  | .setObj elems => elems
  | .plainObj _ sprops symprops => sprops.map (·.value) ++ symprops.map Prod.snd
  | .customObj _ sprops symprops => sprops.map (·.value) ++ symprops.map Prod.snd
  | .funcObj sprops symprops => sprops.map (·.value) ++ symprops.map Prod.snd
  | .dateObj _ => []
  | .regexpObj _ _ => []

/-- A value a clone may contain: a primitive, a reference to a callable
of the source heap (functions pass through by identity), or a reference
into the clone region `[lo, hi)`. -/
def cloneVal (h : Heap) (lo hi : Nat) : JSVal → Prop
  | .vRef x => isFuncAddr h.objs x = true ∨ (lo ≤ x ∧ x < hi)
  | _ => True

/-- Shape restrictions the clone engine guarantees for the objects it
allocates: plain-object properties are created by assignment (hence all
enumerable), and functions are never allocated. -/
def shapeOk : ObjData → Prop
  | .plainObj _ sprops _ => ∀ p ∈ sprops, p.enumerable = true
  | .funcObj _ _ => False
  | _ => True

/-- An address the clone run has promised: either an allocated object or
a cycle-map target (whose object is written when its call returns). -/
def covered (st : CloneSt) (x : Nat) : Prop :=
  x ∈ st.acc.map Prod.fst ∨ x ∈ st.cmap.map Prod.snd

/-- Every clone-region reference inside an object is covered by `st`. -/
def entryCov (st : CloneSt) (lo : Nat) (od : ObjData) : Prop :=
  ∀ v ∈ entryVals od, ∀ x, v = .vRef x → lo ≤ x → covered st x

/-- Invariant of the clone state with respect to the clone region
starting at `lo`: the fresh counter stays in the region, cycle-map
targets and allocated addresses lie in `[lo, fresh)`, and every
allocated object holds only clone values, has clone shape, and has all
its region references covered. -/
def StInv (h : Heap) (lo : Nat) (st : CloneSt) : Prop :=
  lo ≤ st.fresh ∧
  (∀ p ∈ st.cmap, lo ≤ p.2 ∧ p.2 < st.fresh) ∧
  (∀ q ∈ st.acc, lo ≤ q.1 ∧ q.1 < st.fresh) ∧
  (∀ q ∈ st.acc,
    (∀ v ∈ entryVals q.2, cloneVal h lo st.fresh v) ∧ shapeOk q.2 ∧
      entryCov st lo q.2)

/-- Clone states only grow: the fresh counter increases and the
allocation list and cycle map are extended at the front. -/
def stLe (s1 s2 : CloneSt) : Prop :=
  s1.fresh ≤ s2.fresh ∧ s1.acc.IsSuffix s2.acc ∧ s1.cmap.IsSuffix s2.cmap

/-- No dangling references: every reference stored in a heap object
resolves to a heap object. -/
def heapWF (h : Heap) : Bool :=
  h.objs.all (fun p =>
    (entryVals p.2).all (fun v =>
      match v with
      | .vRef x => (lookupA x h.objs).isSome
      | _ => true))

/-- Postcondition of one `deepCloneF` call that returns `some r` from
state `st`: the state invariant is preserved, the state only grows, the
result is a clone value whose clone-region case is covered, and every
new cycle-map entry has (by the time this call returns) an allocated
object. -/
def ClonePost (h : Heap) (lo : Nat) (st : CloneSt) (r : JSVal × CloneSt) : Prop :=
  StInv h lo r.2 ∧ stLe st r.2 ∧ cloneVal h lo r.2.fresh r.1 ∧
  (∀ x, r.1 = .vRef x → lo ≤ x → covered r.2 x) ∧
  (∀ p ∈ r.2.cmap, p ∈ st.cmap ∨ p.2 ∈ r.2.acc.map Prod.fst)

/-- A value is a well-formed clone component for state `s`: it is a
clone value for the region `[lo, s.fresh)` and its clone-region case is
covered by `s`. -/
def cloneValCov (h : Heap) (lo : Nat) (v : JSVal) (s : CloneSt) : Prop :=
  cloneVal h lo s.fresh v ∧ (∀ x, v = .vRef x → lo ≤ x → covered s x)

/-- A value is not a dangling reference. -/
def refWF (h : Heap) (v : JSVal) : Prop :=
  ∀ x, v = .vRef x → (lookupA x h.objs).isSome = true

/-! ## Basic lemmas about address lookup -/

theorem lookupA_isSome_iff_mem {a : Nat} {l : List (Nat × ObjData)} :
    (lookupA a l).isSome = true ↔ a ∈ domA l := by
  induction l with
  | nil => simp [lookupA, domA]
  | cons p rest ih =>
    simp only [lookupA, domA, List.map_cons, List.mem_cons]
    split
    · simp_all
    · rw [ih]; simp [domA]; tauto

theorem lookupA_append_left {a : Nat} {l1 l2 : List (Nat × ObjData)}
    (h : (lookupA a l1).isSome = true) : lookupA a (l1 ++ l2) = lookupA a l1 := by
  induction l1 with
  | nil => simp [lookupA] at h
  | cons p rest ih =>
    simp only [lookupA, List.cons_append]
    split
    · rfl
    · apply ih; simpa [lookupA, *] using h

theorem lookupA_append_right {a : Nat} {l1 l2 : List (Nat × ObjData)}
    (h : lookupA a l1 = none) : lookupA a (l1 ++ l2) = lookupA a l2 := by
  induction l1 with
  | nil => simp
  | cons p rest ih =>
    simp only [lookupA, List.cons_append] at h ⊢
    split at h
    · exact absurd h (by simp)
    · simp only [*, if_neg]; exact ih h

theorem lookupA_mem_of_some {a : Nat} {od : ObjData} {l : List (Nat × ObjData)}
    (h : lookupA a l = some od) : (a, od) ∈ l := by
  induction l with
  | nil => simp [lookupA] at h
  | cons p rest ih =>
    simp only [lookupA] at h
    split at h
    · rename_i heq
      injection h with h2
      have hp : (a, od) = p := by cases p; simp_all
      rw [hp]; exact List.mem_cons_self _ _
    · exact List.mem_cons_of_mem _ (ih h)

/-! ## Invariants of the freeze worklist loop -/

theorem freezeLoopF_mono (objs : List (Nat × ObjData)) :
    ∀ fuel stack vis fr V F, freezeLoopF objs fuel stack vis fr = some (V, F) →
      (∀ x ∈ vis, x ∈ V) ∧ (∀ x ∈ fr, x ∈ F) := by
  intro fuel
  induction fuel with
  | zero => intro stack vis fr V F hres; simp [freezeLoopF] at hres
  | succ fuel ih =>
    intro stack vis fr V F hres
    match stack with
    | [] =>
      simp only [freezeLoopF, Option.some.injEq, Prod.mk.injEq] at hres
      obtain ⟨h1, h2⟩ := hres
      subst h1; subst h2
      exact ⟨fun x hx => hx, fun x hx => hx⟩
    | a :: rest =>
      rw [freezeLoopF] at hres
      split at hres
      · exact ih rest vis fr V F hres
      · cases hlk : lookupA a objs with
        | none => rw [hlk] at hres; exact ih rest vis fr V F hres
        | some od =>
          rw [hlk] at hres
          have h := ih _ _ _ _ _ hres
          exact ⟨fun x hx => h.1 x (by simp [hx]),
                 fun x hx => h.2 x (by simp [hx])⟩

theorem freezeLoopF_stack (objs : List (Nat × ObjData)) :
    ∀ fuel stack vis fr V F, freezeLoopF objs fuel stack vis fr = some (V, F) →
      ∀ a ∈ stack, a ∈ V ∨ a ∈ F ∨ lookupA a objs = none := by
  intro fuel
  induction fuel with
  | zero => intro stack vis fr V F hres; simp [freezeLoopF] at hres
  | succ fuel ih =>
    intro stack vis fr V F hres
    match stack with
    | [] => intro a ha; simp at ha
    | a :: rest =>
      rw [freezeLoopF] at hres
      split at hres
      · rename_i hskip
        intro b hb
        rcases List.mem_cons.mp hb with rfl | hbr
        · rcases hskip with hv | hf
          · exact Or.inl ((freezeLoopF_mono objs _ _ _ _ _ _ hres).1 b hv)
          · exact Or.inr (Or.inl ((freezeLoopF_mono objs _ _ _ _ _ _ hres).2 b hf))
        · exact ih rest vis fr V F hres b hbr
      · cases hlk : lookupA a objs with
        | none =>
          rw [hlk] at hres
          intro b hb
          rcases List.mem_cons.mp hb with rfl | hbr
          · exact Or.inr (Or.inr hlk)
          · exact ih rest vis fr V F hres b hbr
        | some od =>
          rw [hlk] at hres
          intro b hb
          rcases List.mem_cons.mp hb with rfl | hbr
          · exact Or.inl ((freezeLoopF_mono objs _ _ _ _ _ _ hres).1 b (by simp))
          · exact ih _ _ _ V F hres b (by simp [hbr])

theorem freezeLoopF_children (objs : List (Nat × ObjData)) :
    ∀ fuel stack vis fr V F, freezeLoopF objs fuel stack vis fr = some (V, F) →
      ∀ b ∈ V, b ∈ vis ∨ (b ∈ F ∧ ∀ od, lookupA b objs = some od →
        ∀ c ∈ freezeChildren objs od, c ∈ V ∨ c ∈ F ∨ lookupA c objs = none) := by
  intro fuel
  induction fuel with
  | zero => intro stack vis fr V F hres; simp [freezeLoopF] at hres
  | succ fuel ih =>
    intro stack vis fr V F hres
    match stack with
    | [] =>
      simp only [freezeLoopF, Option.some.injEq, Prod.mk.injEq] at hres
      obtain ⟨h1, h2⟩ := hres
      subst h1; subst h2
      exact fun b hb => Or.inl hb
    | a :: rest =>
      rw [freezeLoopF] at hres
      split at hres
      · exact ih rest vis fr V F hres
      · cases hlk : lookupA a objs with
        | none => rw [hlk] at hres; exact ih rest vis fr V F hres
        | some od =>
          rw [hlk] at hres
          intro b hb
          rcases ih _ _ _ _ _ hres b hb with hbv | hgood
          · rcases List.mem_cons.mp hbv with rfl | hbv'
            · refine Or.inr ⟨(freezeLoopF_mono objs _ _ _ _ _ _ hres).2 b (by simp), ?_⟩
              intro od' hod' c hc
              rw [hlk] at hod'; injection hod' with hod'; subst hod'
              exact freezeLoopF_stack objs _ _ _ _ _ _ hres c
                (by simp [List.mem_append, hc])
            · exact Or.inl hbv'
          · exact Or.inr hgood

theorem freezeLoopF_frozen_eq (objs : List (Nat × ObjData)) (f0 : List Nat) :
    ∀ fuel stack vis fr V F, freezeLoopF objs fuel stack vis fr = some (V, F) →
      (∀ x, x ∈ fr ↔ x ∈ f0 ∨ x ∈ vis) →
      ∀ x, x ∈ F ↔ x ∈ f0 ∨ x ∈ V := by
  intro fuel
  induction fuel with
  | zero => intro stack vis fr V F hres; simp [freezeLoopF] at hres
  | succ fuel ih =>
    intro stack vis fr V F hres hfr
    match stack with
    | [] =>
      simp only [freezeLoopF, Option.some.injEq, Prod.mk.injEq] at hres
      obtain ⟨h1, h2⟩ := hres
      subst h1; subst h2
      exact hfr
    | a :: rest =>
      rw [freezeLoopF] at hres
      split at hres
      · exact ih rest vis fr V F hres hfr
      · cases hlk : lookupA a objs with
        | none => rw [hlk] at hres; exact ih rest vis fr V F hres hfr
        | some od =>
          rw [hlk] at hres
          refine ih _ _ _ _ _ hres ?_
          intro x
          simp only [List.mem_cons]
          rw [hfr x]
          tauto

theorem freezeLoopF_provenance (objs : List (Nat × ObjData)) :
    ∀ fuel stack vis fr V F, freezeLoopF objs fuel stack vis fr = some (V, F) →
      ∀ b ∈ F, b ∈ fr ∨ ∃ a ∈ stack, ReachP objs a b := by
  intro fuel
  induction fuel with
  | zero => intro stack vis fr V F hres; simp [freezeLoopF] at hres
  | succ fuel ih =>
    intro stack vis fr V F hres
    match stack with
    | [] =>
      simp only [freezeLoopF, Option.some.injEq, Prod.mk.injEq] at hres
      obtain ⟨h1, h2⟩ := hres
      subst h1; subst h2
      exact fun b hb => Or.inl hb
    | a :: rest =>
      rw [freezeLoopF] at hres
      split at hres
      · intro b hb
        rcases ih rest vis fr V F hres b hb with hbf | ⟨s, hs, hr⟩
        · exact Or.inl hbf
        · exact Or.inr ⟨s, List.mem_cons_of_mem _ hs, hr⟩
      · cases hlk : lookupA a objs with
        | none =>
          rw [hlk] at hres
          intro b hb
          rcases ih rest vis fr V F hres b hb with hbf | ⟨s, hs, hr⟩
          · exact Or.inl hbf
          · exact Or.inr ⟨s, List.mem_cons_of_mem _ hs, hr⟩
        | some od =>
          rw [hlk] at hres
          intro b hb
          rcases ih _ _ _ _ _ hres b hb with hbf | ⟨s, hs, hr⟩
          · rcases List.mem_cons.mp hbf with rfl | hbf'
            · exact Or.inr ⟨b, List.mem_cons_self _ _, ReachP.refl b⟩
            · exact Or.inl hbf'
          · rcases List.mem_append.mp hs with hsc | hsr
            · exact Or.inr ⟨a, List.mem_cons_self _ _,
                ReachP.step a od s b hlk (List.mem_reverse.mp hsc) hr⟩
            · exact Or.inr ⟨s, List.mem_cons_of_mem _ hsr, hr⟩

theorem sumcost_mono (f : Nat × ObjData → Nat) (vis vis' : List Nat)
    (hsub : ∀ x ∈ vis, x ∈ vis') :
    ∀ l : List (Nat × ObjData),
      ((l.filter (fun p => p.1 ∉ vis')).map f).sum ≤
        ((l.filter (fun p => p.1 ∉ vis)).map f).sum := by
  intro l
  induction l with
  | nil => simp
  | cons p rest ih =>
    by_cases h' : p.1 ∈ vis'
    · rw [List.filter_cons_of_neg (by simpa using h')]
      by_cases h : p.1 ∈ vis
      · rw [List.filter_cons_of_neg (by simpa using h)]; exact ih
      · rw [List.filter_cons_of_pos (by simpa using h)]
        simp only [List.map_cons, List.sum_cons]
        omega
    · have h : p.1 ∉ vis := fun hv => h' (hsub _ hv)
      rw [List.filter_cons_of_pos (by simpa using h'),
        List.filter_cons_of_pos (by simpa using h)]
      simp only [List.map_cons, List.sum_cons]
      omega

theorem sumcost_shrink (f : Nat × ObjData → Nat) (a : Nat) (od : ObjData)
    (vis : List Nat) (ha : a ∉ vis) :
    ∀ l : List (Nat × ObjData), (a, od) ∈ l →
      ((l.filter (fun p => p.1 ∉ a :: vis)).map f).sum + f (a, od) ≤
        ((l.filter (fun p => p.1 ∉ vis)).map f).sum := by
  intro l
  induction l with
  | nil => simp
  | cons p rest ih =>
    intro hmem
    rcases List.mem_cons.mp hmem with rfl | hmem'
    · rw [List.filter_cons_of_neg (by simp), List.filter_cons_of_pos (by simpa using ha)]
      simp only [List.map_cons, List.sum_cons]
      have := sumcost_mono f vis (a :: vis) (fun x hx => List.mem_cons_of_mem _ hx) rest
      omega
    · by_cases hp : p.1 ∈ a :: vis
      · rw [List.filter_cons_of_neg (by simp only [decide_not,
          Bool.not_eq_true', decide_eq_false_iff_not, Decidable.not_not]; exact hp)]
        by_cases hq : p.1 ∈ vis
        · rw [List.filter_cons_of_neg (by simpa using hq)]; exact ih hmem'
        · rw [List.filter_cons_of_pos (by simpa using hq)]
          simp only [List.map_cons, List.sum_cons]
          have := ih hmem'
          omega
      · have hq : p.1 ∉ vis := fun hv => hp (List.mem_cons_of_mem _ hv)
        rw [List.filter_cons_of_pos (by simpa using hp),
          List.filter_cons_of_pos (by simpa using hq)]
        simp only [List.map_cons, List.sum_cons]
        have := ih hmem'
        omega

theorem freezeLoopF_suff (objs : List (Nat × ObjData)) :
    ∀ fuel stack vis fr,
      stack.length + pendingCost objs vis + 1 ≤ fuel →
      (freezeLoopF objs fuel stack vis fr).isSome = true := by
  intro fuel
  induction fuel with
  | zero => intro stack vis fr hle; omega
  | succ fuel ih =>
    intro stack vis fr hle
    match stack with
    | [] => simp [freezeLoopF]
    | a :: rest =>
      rw [freezeLoopF]
      split
      · exact ih rest vis fr (by simp at hle ⊢; omega)
      · cases hlk : lookupA a objs with
        | none => exact ih rest vis fr (by simp at hle ⊢; omega)
        | some od =>
          rename_i hskip
          have hav : a ∉ vis := fun hv => hskip (Or.inl hv)
          have hshrink := sumcost_shrink
            (fun p => 1 + (freezeChildren objs p.2).length) a od vis hav objs
            (lookupA_mem_of_some hlk)
          apply ih
          simp only [List.length_append, List.length_reverse]
          simp only [pendingCost] at hle hshrink ⊢
          simp only [List.length_cons] at hle
          omega

theorem pendingCost_nil (objs : List (Nat × ObjData)) :
    pendingCost objs [] =
      (objs.map (fun p => 1 + (freezeChildren objs p.2).length)).sum := by
  simp [pendingCost]

theorem freeze_none_iff (h : Heap) (a : Nat) :
    freeze h (.vRef a) = none ↔ (a ∉ h.frozenA ∧ isFreezableB h a = true) := by
  simp only [freeze]
  split
  · rename_i hfa
    simp [hfa]
  · rename_i hfa
    split
    · rename_i hfz
      simp [hfa, hfz]
    · rename_i hfz
      have hsuff : (freezeLoopF h.objs (freezeFuel h.objs [a]) [a] [] h.frozenA).isSome
          = true := by
        apply freezeLoopF_suff
        rw [pendingCost_nil]
        simp [freezeFuel]
      rcases Option.isSome_iff_exists.mp hsuff with ⟨⟨V, F⟩, hVF⟩
      rw [hVF]
      simp [hfz]

theorem reachU_frozen_fixed {objs : List (Nat × ObjData)} {f0 : List Nat}
    {a b : Nat} (hreach : ReachU objs f0 a b) (ha : a ∈ f0) : b = a := by
  cases hreach with
  | refl => rfl
  | step a od c b hnf => exact absurd ha hnf

/-- After a non-delegated `freeze` call, every existing node that the
engine's traversal can reach (never descending out of an
already-frozen node) is single-level frozen. -/
theorem freeze_covers_reachU (h h' : Heap) (a0 : Nat)
    (hsome : freeze h (.vRef a0) = some h') :
    ∀ b, ReachU h.objs h.frozenA a0 b → (lookupA b h.objs).isSome = true →
      b ∈ h'.frozenA := by
  intro b hreach hdom
  simp only [freeze] at hsome
  split at hsome
  · rename_i hfa
    injection hsome with hsome
    subst hsome
    rw [reachU_frozen_fixed hreach hfa]
    exact hfa
  · rename_i hfa
    split at hsome
    · exact absurd hsome (by simp)
    · rcases hloop : freezeLoopF h.objs (freezeFuel h.objs [a0]) [a0] [] h.frozenA with
        _ | ⟨V, F⟩
      · rw [hloop] at hsome; exact absurd hsome (by simp)
      · rw [hloop] at hsome
        injection hsome with hsome
        subst hsome
        have hFiff : ∀ x, x ∈ F ↔ x ∈ h.frozenA ∨ x ∈ V :=
          freezeLoopF_frozen_eq h.objs h.frozenA _ _ _ _ _ _ hloop (by simp)
        have key : ∀ x y, ReachU h.objs h.frozenA x y →
            (x ∈ V ∨ x ∈ h.frozenA ∨ lookupA x h.objs = none) →
            (y ∈ V ∨ y ∈ h.frozenA ∨ lookupA y h.objs = none) := by
          intro x y hr
          induction hr with
          | refl a => exact id
          | step a od c b hnf hlk hc hrec ih =>
            intro hxgood
            apply ih
            have ha : a ∈ V := by
              rcases hxgood with hv | hf | hn
              · exact hv
              · exact absurd hf hnf
              · rw [hlk] at hn; exact absurd hn (by simp)
            rcases freezeLoopF_children h.objs _ _ _ _ _ _ hloop a ha with
              hvis | ⟨_, hch⟩
            · simp at hvis
            · rcases hch od hlk c hc with hv | hf | hn
              · exact Or.inl hv
              · rcases (hFiff c).mp hf with h1 | h2
                · exact Or.inr (Or.inl h1)
                · exact Or.inl h2
              · exact Or.inr (Or.inr hn)
        have hgoal : b ∈ V ∨ b ∈ h.frozenA ∨ lookupA b h.objs = none := by
          apply key a0 b hreach
          rcases freezeLoopF_stack h.objs _ _ _ _ _ _ hloop a0 (by simp) with
            hv | hf | hn
          · exact Or.inl hv
          · rcases (hFiff a0).mp hf with h1 | h2
            · exact Or.inr (Or.inl h1)
            · exact Or.inl h2
          · exact Or.inr (Or.inr hn)
        show b ∈ F
        rcases hgoal with hv | hf | hn
        · exact (hFiff b).mpr (Or.inr hv)
        · exact (hFiff b).mpr (Or.inl hf)
        · rw [hn] at hdom; exact absurd hdom (by simp)

theorem mem_filterMap_objRef_not_func {objs : List (Nat × ObjData)}
    {l : List JSVal} {c : Nat} (hc : c ∈ l.filterMap (objRef? objs)) :
    isFuncAddr objs c = false := by
  rcases List.mem_filterMap.mp hc with ⟨v, _, hv⟩
  cases v with
  | vRef a =>
    simp only [objRef?] at hv
    split at hv
    · exact absurd hv (by simp)
    · rename_i hfn
      injection hv with hv
      subst hv
      simpa using hfn
  | vNull => simp [objRef?] at hv
  | vUndef => simp [objRef?] at hv
  | vBoolV b => simp [objRef?] at hv
  | vNum n => simp [objRef?] at hv
  | vBig n => simp [objRef?] at hv
  | vStr s => simp [objRef?] at hv
  | vSym i => simp [objRef?] at hv

theorem freezeChildren_not_func {objs : List (Nat × ObjData)} {od : ObjData}
    {c : Nat} (hc : c ∈ freezeChildren objs od) : isFuncAddr objs c = false := by
  cases od with
  | arrObj es => exact mem_filterMap_objRef_not_func hc
  | mapObj es => exact mem_filterMap_objRef_not_func hc
  | setObj es => exact mem_filterMap_objRef_not_func hc
  | dateObj t => simp [freezeChildren] at hc
  | regexpObj s f => simp [freezeChildren] at hc
  | plainObj pn sp sy =>
    rcases List.mem_append.mp hc with h1 | h1 <;>
      exact mem_filterMap_objRef_not_func h1
  | funcObj sp sy =>
    rcases List.mem_append.mp hc with h1 | h1 <;>
      exact mem_filterMap_objRef_not_func h1
  | customObj pid sp sy =>
    rcases List.mem_append.mp hc with h1 | h1 <;>
      exact mem_filterMap_objRef_not_func h1

theorem reachP_func_start {objs : List (Nat × ObjData)} {s b : Nat}
    (hr : ReachP objs s b) (hb : isFuncAddr objs b = true) : b = s := by
  induction hr with
  | refl a => rfl
  | step a od c b hlk hc hrec ih =>
    have hbc := ih hb
    rw [hbc] at hb
    have hcf := freezeChildren_not_func hc
    rw [hcf] at hb
    exact absurd hb (by simp)

theorem isFuncAddr_iff {objs : List (Nat × ObjData)} {a : Nat} :
    isFuncAddr objs a = true ↔
      ∃ sp sy, lookupA a objs = some (.funcObj sp sy) := by
  unfold isFuncAddr
  rcases hlk : lookupA a objs with _ | od
  · simp
  · cases od <;> simp

/-- C1 (amended core): after a `freeze` call that returns, every existing
container the engine's traversal reaches — following children but never
descending out of a node that was already single-level frozen — is
single-level frozen. -/
theorem freeze_freezes_reachable_outside_frozen (h h' : Heap) (a0 b : Nat)
    (hsome : freeze h (.vRef a0) = some h')
    (hreach : ReachU h.objs h.frozenA a0 b)
    (hdom : (lookupA b h.objs).isSome = true) :
    isShallowFrozen h' (.vRef b) = true := by
  have hb := freeze_covers_reachU h h' a0 hsome b hreach hdom
  simp [isShallowFrozen, hb]

/-- Witness for `freeze_freezes_reachable_outside_frozen` at the concrete
heap `hCopyEx` (root 0, chain 0 → 1 → 2, nothing pre-frozen). -/
theorem freeze_freezes_reachable_outside_frozen_witness :
    isShallowFrozen ⟨hCopyEx.objs, [2, 1, 0]⟩ (.vRef 2) = true :=
  freeze_freezes_reachable_outside_frozen hCopyEx ⟨hCopyEx.objs, [2, 1, 0]⟩ 0 2
    (by decide)
    (ReachU.step 0 (.plainObj false [⟨"a", true, .vNum 1⟩, ⟨"nested", true, .vRef 1⟩] [])
      1 2 (by decide) (by decide) (by decide)
      (ReachU.step 1 (.plainObj false [⟨"value", true, .vRef 2⟩] []) 2 2
        (by decide) (by decide) (by decide) (ReachU.refl 2)))
    (by decide)

/-- C1 counterexample: in `hPreFrozenMid` the intermediate node 1 was
already single-level frozen before the call while its child 2 was not;
node 2 is reachable from the root along the engine's child relation, yet
after `freeze` returns it is still not single-level frozen. -/
theorem freeze_prefrozen_blocks_descent :
    (1 ∈ hPreFrozenMid.frozenA) ∧ (2 ∉ hPreFrozenMid.frozenA) ∧
    ReachP hPreFrozenMid.objs 0 2 ∧
    freeze hPreFrozenMid (.vRef 0) = some ⟨hPreFrozenMid.objs, [0, 1]⟩ ∧
    isShallowFrozen ⟨hPreFrozenMid.objs, [0, 1]⟩ (.vRef 2) = false := by
  refine ⟨by decide, by decide, ?_, by decide, by decide⟩
  exact ReachP.step 0 (.plainObj false [⟨"a", true, .vRef 1⟩] []) 1 2
    (by decide) (by decide)
    (ReachP.step 1 (.plainObj false [⟨"b", true, .vRef 2⟩] []) 2 2
      (by decide) (by decide) (ReachP.refl 2))

/-- C6: a second `freeze` of an already-frozen result returns the same
heap unchanged through the already-frozen fast path. -/
theorem freeze_second_call_fast_path (h h' : Heap) (a : Nat)
    (hdom : (lookupA a h.objs).isSome = true)
    (hsome : freeze h (.vRef a) = some h') :
    freeze h' (.vRef a) = some h' ∧ freezeDisp h' (.vRef a) = .fastP := by
  have hfr : a ∈ h'.frozenA := by
    simp only [freeze] at hsome
    split at hsome
    · rename_i hfa
      injection hsome with hsome
      subst hsome
      exact hfa
    · rename_i hfa
      split at hsome
      · exact absurd hsome (by simp)
      · rcases hloop : freezeLoopF h.objs (freezeFuel h.objs [a]) [a] [] h.frozenA with
          _ | ⟨V, F⟩
        · rw [hloop] at hsome; exact absurd hsome (by simp)
        · rw [hloop] at hsome
          injection hsome with hsome
          subst hsome
          show a ∈ F
          have hff : freezeFuel h.objs [a] = (freezeFuel h.objs [a] - 1) + 1 := by
            unfold freezeFuel
            omega
          rw [hff, freezeLoopF] at hloop
          rw [if_neg (by simp [hfa])] at hloop
          obtain ⟨od, hod⟩ := Option.isSome_iff_exists.mp hdom
          rw [hod] at hloop
          exact (freezeLoopF_mono h.objs _ _ _ _ _ _ hloop).2 a (by simp)
  constructor
  · simp only [freeze]
    rw [if_pos hfr]
  · simp only [freezeDisp]
    rw [if_pos hfr]

/-- Witness for `freeze_second_call_fast_path` at the concrete heap
`hCopyEx`. -/
theorem freeze_second_call_fast_path_witness :
    freeze ⟨hCopyEx.objs, [2, 1, 0]⟩ (.vRef 0) = some ⟨hCopyEx.objs, [2, 1, 0]⟩ ∧
    freezeDisp ⟨hCopyEx.objs, [2, 1, 0]⟩ (.vRef 0) = .fastP :=
  freeze_second_call_fast_path hCopyEx ⟨hCopyEx.objs, [2, 1, 0]⟩ 0
    (by decide) (by decide)

/-- C3 (amended): the custom freeze capability is honoured only at the
root: a `freeze` call delegates to external code (returns through the
`Freezable` branch, modelled as `none`) exactly when its argument is an
unfrozen object declaring the capability; and, concretely, a freezable
node reached as a child (`hFreezableChild`, node 1) is traversed
generically — the engine single-level-freezes it itself. -/
theorem freeze_capability_root_only :
    (∀ (h : Heap) (a : Nat),
      freeze h (.vRef a) = none ↔ (a ∉ h.frozenA ∧ isFreezableB h a = true)) ∧
    isFreezableB hFreezableChild 1 = true ∧
    freeze hFreezableChild (.vRef 0) = some ⟨hFreezableChild.objs, [3, 1, 0]⟩ ∧
    isShallowFrozen ⟨hFreezableChild.objs, [3, 1, 0]⟩ (.vRef 1) = true :=
  ⟨freeze_none_iff, by decide, by decide, by decide⟩

/-- C3 counterexample: node 1 of `hFreezableChild` declares the custom
freeze capability, yet the engine does not invoke it for that node — the
call returns through the engine's own traversal (it does not delegate),
and the engine itself descends into node 1's children, freezing its
child `data` (node 3). -/
theorem freezable_child_traversed_generically :
    isFreezableB hFreezableChild 1 = true ∧
    freeze hFreezableChild (.vRef 0) ≠ none ∧
    (freeze hFreezableChild (.vRef 0)).map
      (fun h' => isShallowFrozen h' (.vRef 3)) = some true := by
  refine ⟨by decide, by decide, by decide⟩

/-- C7 (amended): a callable reached as a child is an opaque leaf — its
frozen status is never changed by `freeze` (only a callable passed as
the root is frozen, via the generic branch) — and `deepClone` passes
every callable through by identity without touching the clone state. -/
theorem callables_opaque_as_children (h h' : Heap) (a0 : Nat)
    (hsome : freeze h (.vRef a0) = some h') :
    (∀ x, isFuncAddr h.objs x = true → x ≠ a0 →
      (x ∈ h'.frozenA ↔ x ∈ h.frozenA)) ∧
    (∀ fuel x st, isFuncAddr h.objs x = true →
      deepCloneF h (fuel + 1) (.vRef x) st = some (.vRef x, st)) := by
  constructor
  · intro x hx hne
    simp only [freeze] at hsome
    split at hsome
    · injection hsome with hsome
      subst hsome
      exact Iff.rfl
    · split at hsome
      · exact absurd hsome (by simp)
      · rcases hloop : freezeLoopF h.objs (freezeFuel h.objs [a0]) [a0] [] h.frozenA
          with _ | ⟨V, F⟩
        · rw [hloop] at hsome; exact absurd hsome (by simp)
        · rw [hloop] at hsome
          injection hsome with hsome
          subst hsome
          show x ∈ F ↔ x ∈ h.frozenA
          constructor
          · intro hxF
            rcases freezeLoopF_provenance h.objs _ _ _ _ _ _ hloop x hxF with
              hfr | ⟨s, hs, hr⟩
            · exact hfr
            · have hsa : s = a0 := by simpa using hs
              subst hsa
              exact absurd (reachP_func_start hr hx) hne
          · intro hxf
            exact (freezeLoopF_mono h.objs _ _ _ _ _ _ hloop).2 x hxf
  · intro fuel x st hx
    rcases isFuncAddr_iff.mp hx with ⟨sp, sy, hlk⟩
    simp [deepCloneF, hlk]

/-- Witness for `callables_opaque_as_children`: in `hFnProp` the callable
at address 1 is a child of the root; after `freeze` it is still
unfrozen, and cloning it is the identity. -/
theorem callables_opaque_as_children_witness :
    ((1 ∈ (⟨hFnProp.objs, [0]⟩ : Heap).frozenA) ↔ (1 ∈ hFnProp.frozenA)) ∧
    deepCloneF hFnProp 1 (.vRef 1) ⟨[], [], 2⟩ = some (.vRef 1, ⟨[], [], 2⟩) :=
  ⟨(callables_opaque_as_children hFnProp ⟨hFnProp.objs, [0]⟩ 0 (by decide)).1 1
      (by decide) (by decide),
   (callables_opaque_as_children hFnProp ⟨hFnProp.objs, [0]⟩ 0 (by decide)).2 0 1
      ⟨[], [], 2⟩ (by decide)⟩

/-- C7 counterexample: a callable passed as the *root* of a `freeze` call
is not treated as an opaque leaf — the engine single-level-freezes it via
the generic branch and recurses into its object-valued own property
(`prototype`, node 1), freezing that too. -/
theorem freeze_func_root_frozen_and_descended :
    isFuncAddr hFnRoot.objs 0 = true ∧
    freeze hFnRoot (.vRef 0) = some ⟨hFnRoot.objs, [1, 0]⟩ ∧
    isShallowFrozen ⟨hFnRoot.objs, [1, 0]⟩ (.vRef 0) = true ∧
    isShallowFrozen ⟨hFnRoot.objs, [1, 0]⟩ (.vRef 1) = true := by
  refine ⟨by decide, by decide, by decide, by decide⟩

/-! ## Invariants of the deep-frozen predicate -/

theorem seqCheck_vis_sub (step : JSVal → List Nat → Option (Bool × List Nat))
    (hstep : ∀ c vis r, step c vis = some r → ∀ x ∈ vis, x ∈ r.2) :
    ∀ cs vis r, seqCheck step cs vis = some r → ∀ x ∈ vis, x ∈ r.2 := by
  intro cs
  induction cs with
  | nil =>
    intro vis r hres
    simp only [seqCheck] at hres
    injection hres with hres
    subst hres
    exact fun x hx => hx
  | cons c cs ih =>
    intro vis r hres
    simp only [seqCheck] at hres
    rcases hs : step c vis with _ | ⟨b, vis'⟩
    · rw [hs] at hres; exact absurd hres (by simp)
    · rw [hs] at hres
      cases b
      · injection hres with hres
        subst hres
        exact hstep c vis _ hs
      · intro x hx
        exact ih vis' r hres x (hstep c vis _ hs x hx)

theorem isFrozenImplF_vis_sub (h : Heap) :
    ∀ fuel v vis r, isFrozenImplF h fuel v vis = some r → ∀ x ∈ vis, x ∈ r.2 := by
  intro fuel
  induction fuel with
  | zero => intro v vis r hres; simp [isFrozenImplF] at hres
  | succ fuel ih =>
    intro v vis r hres
    match v with
    | .vNull | .vUndef | .vBoolV _ | .vNum _ | .vBig _ | .vStr _ | .vSym _ =>
      simp only [isFrozenImplF] at hres
      injection hres with hres
      subst hres
      exact fun x hx => hx
    | .vRef a =>
      simp only [isFrozenImplF] at hres
      split at hres
      · injection hres with hres; subst hres; exact fun x hx => hx
      · split at hres
        · rcases hlk : lookupA a h.objs with _ | od
          · rw [hlk] at hres
            injection hres with hres
            subst hres
            exact fun x hx => List.mem_cons_of_mem _ hx
          · rw [hlk] at hres
            intro x hx
            exact seqCheck_vis_sub _ ih _ _ _ hres x (List.mem_cons_of_mem _ hx)
        · injection hres with hres; subst hres; exact fun x hx => hx

theorem seqCheck_false (step : JSVal → List Nat → Option (Bool × List Nat))
    (P : JSVal → Prop)
    (hstep : ∀ c vis vis', step c vis = some (false, vis') → P c) :
    ∀ cs vis vis', seqCheck step cs vis = some (false, vis') → ∃ c ∈ cs, P c := by
  intro cs
  induction cs with
  | nil =>
    intro vis vis' hres
    simp only [seqCheck] at hres
    injection hres with hres
    exact absurd (congrArg Prod.fst hres) (by simp)
  | cons c cs ih =>
    intro vis vis' hres
    simp only [seqCheck] at hres
    rcases hs : step c vis with _ | ⟨b, vis1⟩
    · rw [hs] at hres; exact absurd hres (by simp)
    · rw [hs] at hres
      cases b
      · exact ⟨c, List.mem_cons_self _ _, hstep c vis vis1 hs⟩
      · rcases ih vis1 vis' hres with ⟨c', hc', hP⟩
        exact ⟨c', List.mem_cons_of_mem _ hc', hP⟩

theorem isFrozenImplF_false (h : Heap) :
    ∀ fuel v vis vis', isFrozenImplF h fuel v vis = some (false, vis') →
      ∃ b, ReachIF h v b ∧ b ∉ h.frozenA := by
  intro fuel
  induction fuel with
  | zero => intro v vis vis' hres; simp [isFrozenImplF] at hres
  | succ fuel ih =>
    intro v vis vis' hres
    match v with
    | .vNull | .vUndef | .vBoolV _ | .vNum _ | .vBig _ | .vStr _ | .vSym _ =>
      simp only [isFrozenImplF] at hres
      injection hres with hres
      exact absurd (congrArg Prod.fst hres) (by simp)
    | .vRef a =>
      simp only [isFrozenImplF] at hres
      split at hres
      · injection hres with hres
        exact absurd (congrArg Prod.fst hres) (by simp)
      · rename_i hfa
        split at hres
        · rcases hlk : lookupA a h.objs with _ | od
          · rw [hlk] at hres
            injection hres with hres
            exact absurd (congrArg Prod.fst hres) (by simp)
          · rw [hlk] at hres
            rcases seqCheck_false _ (fun c => ∃ b, ReachIF h c b ∧ b ∉ h.frozenA)
              (fun c vis0 vis0' hs => ih c vis0 vis0' hs) _ _ _ hres with
              ⟨c, hc, b, hrb, hbad⟩
            exact ⟨b, ReachIF.child a od c b hlk hc hrb, hbad⟩
        · rename_i hnf
          exact ⟨a, ReachIF.here a, hnf⟩

theorem unvisCount_mono (objs : List (Nat × ObjData)) (vis vis' : List Nat)
    (hsub : ∀ x ∈ vis, x ∈ vis') :
    unvisCount objs vis' ≤ unvisCount objs vis := by
  unfold unvisCount
  induction objs with
  | nil => simp
  | cons p rest ih =>
    by_cases h' : p.1 ∈ vis'
    · rw [List.filter_cons_of_neg (by simp only [decide_not,
        Bool.not_eq_true', decide_eq_false_iff_not, Decidable.not_not]; exact h')]
      by_cases hq : p.1 ∈ vis
      · rw [List.filter_cons_of_neg (by simp only [decide_not,
          Bool.not_eq_true', decide_eq_false_iff_not, Decidable.not_not]; exact hq)]
        exact ih
      · rw [List.filter_cons_of_pos (by simpa using hq)]
        simp only [List.length_cons]
        omega
    · have hq : p.1 ∉ vis := fun hv => h' (hsub _ hv)
      rw [List.filter_cons_of_pos (by simpa using h'),
        List.filter_cons_of_pos (by simpa using hq)]
      simp only [List.length_cons]
      omega

theorem unvisCount_shrink (objs : List (Nat × ObjData)) (a : Nat) (od : ObjData)
    (vis : List Nat) (ha : a ∉ vis) (hmem : (a, od) ∈ objs) :
    unvisCount objs (a :: vis) + 1 ≤ unvisCount objs vis := by
  unfold unvisCount
  induction objs with
  | nil => simp at hmem
  | cons p rest ih =>
    rcases List.mem_cons.mp hmem with rfl | hmem'
    · rw [List.filter_cons_of_neg (by simp), List.filter_cons_of_pos (by simpa using ha)]
      simp only [List.length_cons]
      have := unvisCount_mono rest vis (a :: vis) (fun x hx => List.mem_cons_of_mem _ hx)
      unfold unvisCount at this
      omega
    · by_cases hp : p.1 ∈ a :: vis
      · rw [List.filter_cons_of_neg (by simp only [decide_not,
          Bool.not_eq_true', decide_eq_false_iff_not, Decidable.not_not]; exact hp)]
        by_cases hq : p.1 ∈ vis
        · rw [List.filter_cons_of_neg (by simp only [decide_not,
            Bool.not_eq_true', decide_eq_false_iff_not, Decidable.not_not]; exact hq)]
          exact ih hmem'
        · rw [List.filter_cons_of_pos (by simpa using hq)]
          simp only [List.length_cons]
          have := ih hmem'
          omega
      · have hq : p.1 ∉ vis := fun hv => hp (List.mem_cons_of_mem _ hv)
        rw [List.filter_cons_of_pos (by simp only [decide_not,
          Bool.not_eq_true', decide_eq_false_iff_not]; exact hp),
          List.filter_cons_of_pos (by simpa using hq)]
        simp only [List.length_cons]
        have := ih hmem'
        omega

theorem seqCheck_suff (h : Heap) (f : Nat)
    (step : JSVal → List Nat → Option (Bool × List Nat))
    (hsuff : ∀ c vis, unvisCount h.objs vis + 2 ≤ f → (step c vis).isSome = true)
    (hmono : ∀ c vis r, step c vis = some r → ∀ x ∈ vis, x ∈ r.2) :
    ∀ cs vis, unvisCount h.objs vis + 2 ≤ f →
      (seqCheck step cs vis).isSome = true := by
  intro cs
  induction cs with
  | nil => intro vis hle; simp [seqCheck]
  | cons c cs ih =>
    intro vis hle
    simp only [seqCheck]
    rcases hs : step c vis with _ | ⟨b, vis'⟩
    · have := hsuff c vis hle
      rw [hs] at this
      simp at this
    · cases b
      · simp
      · apply ih vis'
        have hsub := hmono c vis _ hs
        have := unvisCount_mono h.objs vis vis' hsub
        omega

theorem isFrozenImplF_suff (h : Heap) :
    ∀ fuel v vis, unvisCount h.objs vis + 2 ≤ fuel →
      (isFrozenImplF h fuel v vis).isSome = true := by
  intro fuel
  induction fuel with
  | zero => intro v vis hle; omega
  | succ fuel ih =>
    intro v vis hle
    match v with
    | .vNull | .vUndef | .vBoolV _ | .vNum _ | .vBig _ | .vStr _ | .vSym _ =>
      simp [isFrozenImplF]
    | .vRef a =>
      simp only [isFrozenImplF]
      split
      · simp
      · rename_i hvis
        split
        · rcases hlk : lookupA a h.objs with _ | od
          · simp
          · apply seqCheck_suff h fuel _ ih (isFrozenImplF_vis_sub h fuel)
            have := unvisCount_shrink h.objs a od vis hvis (lookupA_mem_of_some hlk)
            omega
        · simp

theorem seqCheck_true (step : JSVal → List Nat → Option (Bool × List Nat))
    (Good : Nat → List Nat → Prop)
    (hGmono : ∀ b o1 o2, (∀ x ∈ o1, x ∈ o2) → Good b o1 → Good b o2)
    (hmono : ∀ c vis r, step c vis = some r → ∀ x ∈ vis, x ∈ r.2)
    (hstep : ∀ c vis out, step c vis = some (true, out) →
      (∀ r, c = .vRef r → r ∈ out) ∧ (∀ b ∈ out, b ∈ vis ∨ Good b out)) :
    ∀ cs vis out, seqCheck step cs vis = some (true, out) →
      (∀ c ∈ cs, ∀ r, c = .vRef r → r ∈ out) ∧
      (∀ b ∈ out, b ∈ vis ∨ Good b out) := by
  intro cs
  induction cs with
  | nil =>
    intro vis out hres
    simp only [seqCheck] at hres
    injection hres with hres
    have hv : vis = out := congrArg Prod.snd hres
    subst hv
    exact ⟨fun c hc => by simp at hc, fun b hb => Or.inl hb⟩
  | cons c cs ih =>
    intro vis out hres
    simp only [seqCheck] at hres
    rcases hs : step c vis with _ | ⟨b0, vis1⟩
    · rw [hs] at hres; exact absurd hres (by simp)
    · rw [hs] at hres
      cases b0
      · injection hres with hres
        exact absurd (congrArg Prod.fst hres) (by simp)
      · have hIH := ih vis1 out hres
        have hsub1 : ∀ x ∈ vis1, x ∈ out :=
          seqCheck_vis_sub step hmono cs vis1 (true, out) hres
        have hstepC := hstep c vis vis1 hs
        refine ⟨?_, ?_⟩
        · intro c' hc' r hr
          rcases List.mem_cons.mp hc' with rfl | hcs
          · exact hsub1 r (hstepC.1 r hr)
          · exact hIH.1 c' hcs r hr
        · intro b hb
          rcases hIH.2 b hb with hv1 | hg
          · rcases hstepC.2 b hv1 with hv | hg1
            · exact Or.inl hv
            · exact Or.inr (hGmono b vis1 out hsub1 hg1)
          · exact Or.inr hg

theorem isFrozenImplF_true (h : Heap) :
    ∀ fuel v vis out, isFrozenImplF h fuel v vis = some (true, out) →
      (∀ r, v = .vRef r → r ∈ out) ∧
      (∀ b ∈ out, b ∈ vis ∨ (b ∈ h.frozenA ∧
        ∀ od, lookupA b h.objs = some od →
          ∀ c ∈ isFrozenChildren od, ∀ r, c = .vRef r → r ∈ out)) := by
  intro fuel
  induction fuel with
  | zero => intro v vis out hres; simp [isFrozenImplF] at hres
  | succ fuel ih =>
    intro v vis out hres
    match v with
    | .vNull | .vUndef | .vBoolV _ | .vNum _ | .vBig _ | .vStr _ | .vSym _ =>
      simp only [isFrozenImplF] at hres
      injection hres with hres
      have hv : vis = out := congrArg Prod.snd hres
      subst hv
      exact ⟨(fun r hr => nomatch hr), fun b hb => Or.inl hb⟩
    | .vRef a =>
      simp only [isFrozenImplF] at hres
      split at hres
      · rename_i hvis
        injection hres with hres
        have hv : vis = out := congrArg Prod.snd hres
        subst hv
        exact ⟨fun r hr => by injection hr with hr; subst hr; exact hvis,
          fun b hb => Or.inl hb⟩
      · rename_i hvis
        split at hres
        · rename_i hfroz
          rcases hlk : lookupA a h.objs with _ | od
          · rw [hlk] at hres
            injection hres with hres
            have hv : a :: vis = out := congrArg Prod.snd hres
            subst hv
            refine ⟨fun r hr => by injection hr with hr; subst hr; simp, ?_⟩
            intro b hb
            rcases List.mem_cons.mp hb with rfl | hbv
            · exact Or.inr ⟨hfroz, fun od hod => by rw [hlk] at hod; cases hod⟩
            · exact Or.inl hbv
          · rw [hlk] at hres
            have hTS := seqCheck_true (isFrozenImplF h fuel)
              (fun b out => b ∈ h.frozenA ∧
                ∀ od, lookupA b h.objs = some od →
                  ∀ c ∈ isFrozenChildren od, ∀ r, c = .vRef r → r ∈ out)
              (fun b o1 o2 hsub hg =>
                ⟨hg.1, fun od hod c hc r hr => hsub r (hg.2 od hod c hc r hr)⟩)
              (isFrozenImplF_vis_sub h fuel) (ih) _ _ _ hres
            have hsub : ∀ x ∈ a :: vis, x ∈ out :=
              seqCheck_vis_sub (isFrozenImplF h fuel) (isFrozenImplF_vis_sub h fuel)
                _ _ _ hres
            refine ⟨fun r hr => by injection hr with hr; subst hr; exact hsub a (by simp),
              ?_⟩
            intro b hb
            rcases hTS.2 b hb with hbv | hg
            · rcases List.mem_cons.mp hbv with rfl | hbv'
              · refine Or.inr ⟨hfroz, ?_⟩
                intro od' hod' c hc r hr
                rw [hlk] at hod'
                injection hod' with hod'
                subst hod'
                exact hTS.1 c hc r hr
              · exact Or.inl hbv'
            · exact Or.inr hg
        · rename_i hfroz
          injection hres with hres
          exact absurd (congrArg Prod.fst hres) (by simp)

theorem unvisCount_nil (objs : List (Nat × ObjData)) :
    unvisCount objs [] = objs.length := by
  simp [unvisCount]

/-- The deep-frozen predicate returns `false` exactly when some node
reachable along its child relation (array elements, Map keys and values,
Set members, all own string-keyed property values — symbol-keyed
properties excluded) is not single-level frozen. -/
theorem isFrozenB_false_iff (h : Heap) (v : JSVal) :
    isFrozenB h v = false ↔ ∃ b, ReachIF h v b ∧ b ∉ h.frozenA := by
  unfold isFrozenB
  rcases hrun : isFrozenImplF h (h.objs.length + 2) v [] with _ | ⟨b, out⟩
  · have hsuff := isFrozenImplF_suff h (h.objs.length + 2) v []
      (by rw [unvisCount_nil])
    rw [hrun] at hsuff
    simp at hsuff
  · cases b
    · simp only [iff_true_intro rfl, true_iff]
      exact isFrozenImplF_false h _ v [] out hrun
    · simp only []
      constructor
      · intro hcontra; cases hcontra
      · rintro ⟨b, hreach, hbad⟩
        exfalso
        have hTS := isFrozenImplF_true h _ v [] out hrun
        have hcov : ∀ w b', ReachIF h w b' → (∀ r, w = .vRef r → r ∈ out) →
            b' ∈ out := by
          intro w b' hr
          induction hr with
          | here a => exact fun hpre => hpre a rfl
          | child a od c b' hlk hc hrec ih =>
            intro hpre
            have ha : a ∈ out := hpre a rfl
            rcases hTS.2 a ha with hav | ⟨_, hgood⟩
            · simp at hav
            · exact ih (fun r hr => hgood od hlk c hc r hr)
        have hbo : b ∈ out := hcov v b hreach hTS.1
        rcases hTS.2 b hbo with hbv | ⟨hbf, _⟩
        · simp at hbv
        · exact hbad hbf

/-- C4 (amended): `isFrozen` returns `false` exactly when some node
reachable along *its* child relation fails the single-level frozen
check; that relation takes array elements, Map keys and values, Set
members, and every own string-keyed property value (enumerable or not) —
but not symbol-keyed property values. -/
theorem isFrozen_false_iff_reachable_unfrozen (h : Heap) (v : JSVal) :
    isFrozenB h v = false ↔
      ∃ b, ReachIF h v b ∧ isShallowFrozen h (.vRef b) = false := by
  rw [isFrozenB_false_iff]
  apply exists_congr
  intro b
  apply and_congr_right
  intro _
  simp [isShallowFrozen]

/-- C4 counterexample: `hSymOnly` is a single-level-frozen plain object
whose only child — unfrozen — sits under a symbol key; `isFrozen` still
reports `true` because symbol-keyed properties are never examined. -/
theorem isFrozen_ignores_symbol_keyed_child :
    lookupA 0 hSymOnly.objs = some (.plainObj false [] [(7, .vRef 1)]) ∧
    isShallowFrozen hSymOnly (.vRef 0) = true ∧
    isShallowFrozen hSymOnly (.vRef 1) = false ∧
    isFrozenB hSymOnly (.vRef 0) = true := by
  refine ⟨by decide, by decide, by decide, by decide⟩

/-- C10: `isFrozen ∘ freeze` is not constantly true: freezing `hFnProp`
(a plain object whose property `f` holds an unfrozen callable) leaves
the callable unfrozen — the engine never pushes `function`-typed
children — while the deep-frozen predicate demands every own property
value, callables included, pass the single-level check. -/
theorem isFrozen_after_freeze_false_on_func_prop :
    lookupA 0 hFnProp.objs = some (.plainObj false [⟨"f", true, .vRef 1⟩] []) ∧
    isFuncAddr hFnProp.objs 1 = true ∧
    (freeze hFnProp (.vRef 0)).map (fun h' => isFrozenB h' (.vRef 0)) =
      some false := by
  refine ⟨by decide, by decide, by decide⟩

/-- C8: the first-unfrozen-path finder on the three concrete shapes of
the claim, plus the fully-frozen case returning no path, and the
deep-versus-shallow distinction on the `nested` example. -/
theorem findUnfrozenPath_concrete_paths :
    findUnfrozenPath hPathPlain (.vRef 0) = some "b" ∧
    findUnfrozenPath hPathArr (.vRef 0) = some "arr[1]" ∧
    findUnfrozenPath hPathNested (.vRef 0) = some "nested" ∧
    isFrozenB hPathAllFrozen (.vRef 0) = true ∧
    findUnfrozenPath hPathAllFrozen (.vRef 0) = none ∧
    isFrozenB hPathNested (.vRef 0) = false ∧
    isShallowFrozen hPathNested (.vRef 0) = true := by
  refine ⟨by decide, by decide, by decide, by decide, by decide, by decide, by decide⟩

/-- C9: `assertFrozen` raises a `FrozenAssertionError` carrying the
offending value and a message containing the supplied name exactly when
the deep-frozen predicate fails, and `assertMutable` raises the same
error kind exactly when the value is a non-null, non-callable object
that is single-level frozen; each returns normally otherwise. -/
theorem assert_helpers_raise_iff (h : Heap) (v : JSVal) (name : String) :
    ((∃ e, assertFrozen h v name = .error e) ↔ isFrozenB h v = false) ∧
    (∀ e, assertFrozen h v name = .error e →
      e.value = v ∧ ∃ s t, e.message = s ++ name ++ t) ∧
    ((∃ e, assertMutable h v name = .error e) ↔
      (typeofIsObject h v = true ∧ isShallowFrozen h v = true)) ∧
    (∀ e, assertMutable h v name = .error e →
      e.value = v ∧ ∃ s t, e.message = s ++ name ++ t) ∧
    (isFrozenB h v = true → assertFrozen h v name = .ok ()) ∧
    (typeofIsObject h v = false ∨ isShallowFrozen h v = false →
      assertMutable h v name = .ok ()) := by
  refine ⟨?_, ?_, ?_, ?_, ?_, ?_⟩
  · unfold assertFrozen
    by_cases hf : isFrozenB h v = true
    · rw [if_pos hf]
      simp [hf]
    · rw [if_neg hf]
      simp only [Bool.not_eq_true] at hf
      simp [hf]
  · intro e he
    unfold assertFrozen at he
    by_cases hf : isFrozenB h v = true
    · rw [if_pos hf] at he
      exact absurd he (by simp)
    · rw [if_neg hf] at he
      injection he with he
      subst he
      exact ⟨rfl, "Expected ",
        " to be deeply frozen, but it is not. " ++
          "Use freeze() or frozenCopy() to create immutable data.",
        by simp [String.append_assoc]⟩
  · unfold assertMutable
    by_cases hm : (typeofIsObject h v && isShallowFrozen h v) = true
    · rw [if_pos hm]
      simp only [Bool.and_eq_true] at hm
      simp [hm]
    · rw [if_neg hm]
      simp only [Bool.and_eq_true] at hm
      simp only [not_and] at hm
      constructor
      · rintro ⟨e, he⟩
        exact absurd he (by simp)
      · rintro ⟨h1, h2⟩
        exact absurd h2 (by simp [hm h1])
  · intro e he
    unfold assertMutable at he
    by_cases hm : (typeofIsObject h v && isShallowFrozen h v) = true
    · rw [if_pos hm] at he
      injection he with he
      subst he
      exact ⟨rfl, "Expected ",
        " to be mutable, but it is frozen. " ++
          "Create a mutable copy if you need to modify it.",
        by simp [String.append_assoc]⟩
    · rw [if_neg hm] at he
      exact absurd he (by simp)
  · intro hf
    unfold assertFrozen
    rw [if_pos hf]
  · intro hcases
    unfold assertMutable
    rw [if_neg ?_]
    rcases hcases with h1 | h1 <;> simp [h1]

/-! ## The linear-chain family (depth safety / call-depth growth) -/

theorem reachU_snoc {objs : List (Nat × ObjData)} {f0 : List Nat} {a b c : Nat}
    {od : ObjData} (hab : ReachU objs f0 a b) (hbf : b ∉ f0)
    (hlk : lookupA b objs = some od) (hc : c ∈ freezeChildren objs od) :
    ReachU objs f0 a c := by
  induction hab with
  | refl a => exact ReachU.step a od c c hbf hlk hc (ReachU.refl c)
  | step a od' c' b hnf hlk' hc' hrec ih =>
    exact ReachU.step a od' c' c hnf hlk' hc' (ih hbf hlk)

theorem chain_lookup :
    ∀ (k i j : Nat), i ≤ j → j < i + k →
      lookupA j (chainObjsAux i k) =
        some (.plainObj false
          [⟨"child", true, if j + 1 = i + k then .vNum 0 else .vRef (j + 1)⟩] []) := by
  intro k
  induction k with
  | zero => intro i j h1 h2; omega
  | succ k ih =>
    intro i j h1 h2
    by_cases hji : j = i
    · subst hji
      by_cases hk : k = 0
      · subst hk
        simp [chainObjsAux, lookupA]
      · have hk1 : ¬(j + 1 = j + (k + 1)) := by omega
        simp [chainObjsAux, lookupA, hk, hk1]
    · have hstep : lookupA j (chainObjsAux i (k + 1)) =
          lookupA j (chainObjsAux (i + 1) k) := by
        simp [chainObjsAux, lookupA, hji]
      rw [hstep, ih (i + 1) j (by omega) (by omega)]
      have harith : i + 1 + k = i + (k + 1) := by omega
      rw [harith]

theorem chainH_objs (n : Nat) : (chainH n).objs = chainObjsAux 0 n := rfl

theorem chainHF_objs (n : Nat) : (chainHF n).objs = chainObjsAux 0 n := rfl

theorem chain_lookup0 (n j : Nat) (hj : j < n) :
    lookupA j (chainObjsAux 0 n) =
      some (.plainObj false
        [⟨"child", true, if j + 1 = n then .vNum 0 else .vRef (j + 1)⟩] []) := by
  have h := chain_lookup n 0 j (by omega) (by omega)
  simpa using h

theorem chain_lookup_isSome (n j : Nat) (hj : j < n) :
    (lookupA j (chainH n).objs).isSome = true := by
  rw [chainH_objs, chain_lookup0 n j hj]
  rfl

theorem chain_child_mem (n j : Nat) (hj : j + 1 < n) :
    (j + 1) ∈ freezeChildren (chainH n).objs
      (.plainObj false [⟨"child", true, .vRef (j + 1)⟩] []) := by
  have hfn : isFuncAddr (chainH n).objs (j + 1) = false := by
    unfold isFuncAddr
    rw [chainH_objs, chain_lookup0 n (j + 1) (by omega)]
  simp [freezeChildren, objRef?, hfn]

theorem chain_reachU (n : Nat) : ∀ j, j < n → ReachU (chainH n).objs [] 0 j := by
  intro j
  induction j with
  | zero => intro _; exact ReachU.refl 0
  | succ j ih =>
    intro hj
    have hr := ih (by omega)
    have hlk : lookupA j (chainH n).objs =
        some (.plainObj false [⟨"child", true, .vRef (j + 1)⟩] []) := by
      rw [chainH_objs, chain_lookup0 n j (by omega), if_neg (by omega)]
    exact reachU_snoc hr (by simp) hlk (chain_child_mem n j hj)

theorem chain_not_freezable (n : Nat) (hn : 0 < n) :
    isFreezableB (chainH n) 0 = false := by
  unfold isFreezableB
  rw [chainH_objs, chain_lookup0 n 0 hn]
  simp

/-- `freeze` completes on the `n`-chain and leaves every node
single-level frozen (the loop is iterative: its fuel counts loop
iterations, not nested calls). -/
theorem chain_freeze_all (n : Nat) (hn : 0 < n) :
    ∃ h', freeze (chainH n) (.vRef 0) = some h' ∧
      ∀ i, i < n → isShallowFrozen h' (.vRef i) = true := by
  have hnone : ¬(freeze (chainH n) (.vRef 0) = none) := by
    rw [freeze_none_iff]
    rintro ⟨-, hfb⟩
    rw [chain_not_freezable n hn] at hfb
    cases hfb
  rcases hres : freeze (chainH n) (.vRef 0) with _ | h'
  · exact absurd hres hnone
  · refine ⟨h', rfl, ?_⟩
    intro i hi
    have hreach : ReachU (chainH n).objs (chainH n).frozenA 0 i := chain_reachU n i hi
    exact freeze_freezes_reachable_outside_frozen (chainH n) h' 0 i hres hreach
      (chain_lookup_isSome n i hi)

/-- The deep-frozen predicate needs native recursion depth larger than
`n - j` below node `j` of the fully frozen `n`-chain: with fuel (call
depth budget) at most `n - j` it runs out. -/
theorem chain_isFrozen_depth_exceeded (n : Nat) :
    ∀ f j vis, j < n → (∀ x ∈ vis, x < j) → f + j ≤ n →
      isFrozenImplF (chainHF n) f (.vRef j) vis = none := by
  intro f
  induction f with
  | zero => intro j vis _ _ _; rfl
  | succ f ih =>
    intro j vis hj hvis hle
    have hjvis : j ∉ vis := fun hx => absurd (hvis j hx) (by omega)
    have hjfr : j ∈ (chainHF n).frozenA := by
      simp [chainHF, List.mem_range, hj]
    have hstep : isFrozenImplF (chainHF n) (f + 1) (.vRef j) vis =
        seqCheck (isFrozenImplF (chainHF n) f)
          [if j + 1 = n then JSVal.vNum 0 else JSVal.vRef (j + 1)] (j :: vis) := by
      simp only [isFrozenImplF]
      rw [if_neg hjvis, if_pos hjfr, chainHF_objs, chain_lookup0 n j hj]
      rfl
    rw [hstep]
    by_cases hend : j + 1 = n
    · rw [if_pos hend]
      have hf0 : f = 0 := by omega
      subst hf0
      simp [seqCheck, isFrozenImplF]
    · rw [if_neg hend]
      have hnext := ih (j + 1) (j :: vis) (by omega)
        (by intro x hx
            rcases List.mem_cons.mp hx with rfl | hx'
            · omega
            · have := hvis x hx'; omega)
        (by omega)
      simp only [seqCheck]
      rw [hnext]

/-- The deep-frozen predicate completes on the fully frozen `n`-chain
once the fuel exceeds the chain length by two. -/
theorem chain_isFrozen_completes (n : Nat) :
    ∀ f j vis, j < n → (∀ x ∈ vis, x < j) → n - j + 2 ≤ f →
      ∃ vis', isFrozenImplF (chainHF n) f (.vRef j) vis = some (true, vis') := by
  intro f
  induction f with
  | zero => intro j vis _ _ h; omega
  | succ f ih =>
    intro j vis hj hvis hle
    have hjvis : j ∉ vis := fun hx => absurd (hvis j hx) (by omega)
    have hjfr : j ∈ (chainHF n).frozenA := by
      simp [chainHF, List.mem_range, hj]
    have hstep : isFrozenImplF (chainHF n) (f + 1) (.vRef j) vis =
        seqCheck (isFrozenImplF (chainHF n) f)
          [if j + 1 = n then JSVal.vNum 0 else JSVal.vRef (j + 1)] (j :: vis) := by
      simp only [isFrozenImplF]
      rw [if_neg hjvis, if_pos hjfr, chainHF_objs, chain_lookup0 n j hj]
      rfl
    rw [hstep]
    by_cases hend : j + 1 = n
    · rw [if_pos hend]
      have hf1 : ∃ f', f = f' + 1 := ⟨f - 1, by omega⟩
      rcases hf1 with ⟨f', rfl⟩
      refine ⟨j :: vis, ?_⟩
      simp [seqCheck, isFrozenImplF]
    · rw [if_neg hend]
      rcases ih (j + 1) (j :: vis) (by omega)
        (by intro x hx
            rcases List.mem_cons.mp hx with rfl | hx'
            · omega
            · have := hvis x hx'; omega)
        (by omega) with ⟨vis', hsome⟩
      refine ⟨vis', ?_⟩
      simp only [seqCheck]
      rw [hsome]

theorem cmap_lookup_none {m : List (Nat × Nat)} {j : Nat}
    (hm : ∀ p ∈ m, p.1 < j) : m.lookup j = none := by
  induction m with
  | nil => rfl
  | cons p rest ih =>
    have hp := hm p (List.mem_cons_self _ _)
    have hne : (j == p.1) = false := by
      simp only [beq_eq_false_iff_ne, ne_eq]
      omega
    simp only [List.lookup, hne]
    exact ih (fun q hq => hm q (List.mem_cons_of_mem _ hq))

/-- The deep clone completes on the `n`-chain once the fuel (call-depth
budget) exceeds the chain length by two. -/
theorem chain_clone_completes (n : Nat) :
    ∀ f j st, j < n → (∀ p ∈ st.cmap, p.1 < j) → n - j + 2 ≤ f →
      ∃ r, deepCloneF (chainH n) f (.vRef j) st = some r := by
  intro f
  induction f with
  | zero => intro j st _ _ h; omega
  | succ f ih =>
    intro j st hj hst hle
    simp only [deepCloneF, chainH_objs, chain_lookup0 n j hj, cmap_lookup_none hst]
    by_cases hend : j + 1 = n
    · rw [if_pos hend]
      have hf1 : ∃ g, f = g + 1 := ⟨f - 1, by omega⟩
      rcases hf1 with ⟨g, rfl⟩
      simp [stMapM, deepCloneF]
    · rw [if_neg hend]
      have hnext := ih (j + 1)
        (⟨(j, st.fresh) :: st.cmap, st.acc, st.fresh + 1⟩ : CloneSt) (by omega)
        (by intro q hq
            rcases List.mem_cons.mp hq with rfl | hq2
            · simp
            · have := hst q hq2
              omega)
        (by omega)
      rcases hnext with ⟨⟨v2, st2⟩, hsome⟩
      simp only [stMapM, List.filter]
      rw [hsome]
      simp [stMapM]

/-- The deep clone needs native recursion depth larger than `n - j`
below node `j` of the `n`-chain: with fuel (call-depth budget) at most
`n - j` it runs out, for any clone state whose cycle map only records
earlier nodes. -/
theorem chain_clone_depth_exceeded (n : Nat) :
    ∀ f j st, j < n → (∀ p ∈ st.cmap, p.1 < j) → f + j ≤ n →
      deepCloneF (chainH n) f (.vRef j) st = none := by
  intro f
  induction f with
  | zero => intro j st _ _ _; rfl
  | succ f ih =>
    intro j st hj hst hle
    simp only [deepCloneF, chainH_objs, chain_lookup0 n j hj, cmap_lookup_none hst]
    by_cases hend : j + 1 = n
    · rw [if_pos hend]
      have hf0 : f = 0 := by omega
      subst hf0
      simp [stMapM, deepCloneF]
    · rw [if_neg hend]
      have hnext := ih (j + 1)
        (⟨(j, st.fresh) :: st.cmap, st.acc, st.fresh + 1⟩ : CloneSt) (by omega)
        (by intro q hq
            rcases List.mem_cons.mp hq with rfl | hq2
            · simp
            · have := hst q hq2
              omega)
        (by omega)
      simp only [stMapM, List.filter]
      rw [hnext]
      simp

/-- C2 (amended): on the 1000-chain, the iterative `freeze` worklist
completes and freezes every node (its fuel counts loop iterations, not
nested calls); the recursive `isFrozenImpl` and `deepClone` complete as
well, but at native recursion depth proportional to the nesting depth —
for both recursive traversals, every finite call-depth budget `m + 1` is
exhausted by the chain of `m + 1` containers (fully frozen for the
deep-frozen predicate), while depth 1002 suffices for the 1000-chain. -/
theorem traversal_depth_behaviour :
    (∃ h', freeze (chainH 1000) (.vRef 0) = some h' ∧
      ∀ i, i < 1000 → isShallowFrozen h' (.vRef i) = true) ∧
    (∀ m, isFrozenImplF (chainHF (m + 1)) (m + 1) (.vRef 0) [] = none) ∧
    (∀ m, deepCloneF (chainH (m + 1)) (m + 1) (.vRef 0)
      ⟨[], [], freshA (chainH (m + 1))⟩ = none) ∧
    (∃ vis', isFrozenImplF (chainHF 1000) 1002 (.vRef 0) [] = some (true, vis')) ∧
    (∃ r, deepCloneF (chainH 1000) 1002 (.vRef 0)
      ⟨[], [], freshA (chainH 1000)⟩ = some r) := by
  refine ⟨chain_freeze_all 1000 (by omega), ?_, ?_, ?_, ?_⟩
  · intro m
    exact chain_isFrozen_depth_exceeded (m + 1) (m + 1) 0 [] (by omega) (by simp)
      (by omega)
  · intro m
    exact chain_clone_depth_exceeded (m + 1) (m + 1) 0
      ⟨[], [], freshA (chainH (m + 1))⟩ (by omega) (by simp) (by omega)
  · exact chain_isFrozen_completes 1000 1002 0 [] (by omega) (by simp) (by omega)
  · exact chain_clone_completes 1000 1002 0 ⟨[], [], freshA (chainH 1000)⟩
      (by omega) (by simp) (by omega)

/-- C2 counterexample: both recursive traversals need more than 1001
stack frames on the chain of 1001 containers — the deep-frozen
predicate and the deep clone each return the fuel-exhaustion marker at
call-depth budget 1001, so their call-stack growth is proportional to
nesting depth — while the iterative `freeze` completes on the same
chain. -/
theorem isFrozen_depth_grows_with_nesting :
    isFrozenImplF (chainHF 1001) 1001 (.vRef 0) [] = none ∧
    deepCloneF (chainH 1001) 1001 (.vRef 0) ⟨[], [], freshA (chainH 1001)⟩ = none ∧
    (∃ h', freeze (chainH 1001) (.vRef 0) = some h') := by
  refine ⟨?_, ?_, ?_⟩
  · exact chain_isFrozen_depth_exceeded 1001 1001 0 [] (by omega) (by simp) (by omega)
  · exact chain_clone_depth_exceeded 1001 1001 0 ⟨[], [], freshA (chainH 1001)⟩
      (by omega) (by simp) (by omega)
  · rcases chain_freeze_all 1001 (by omega) with ⟨h', hh, -⟩
    exact ⟨h', hh⟩

/-! ## Invariants of the deep clone -/

theorem stLe_refl (s : CloneSt) : stLe s s :=
  ⟨le_refl _, List.suffix_refl _, List.suffix_refl _⟩

theorem stLe_trans {s1 s2 s3 : CloneSt} (h12 : stLe s1 s2) (h23 : stLe s2 s3) :
    stLe s1 s3 :=
  ⟨le_trans h12.1 h23.1, h12.2.1.trans h23.2.1, h12.2.2.trans h23.2.2⟩

theorem accKeys_mono {s1 s2 : CloneSt} (hle : stLe s1 s2) {x : Nat}
    (hx : x ∈ s1.acc.map Prod.fst) : x ∈ s2.acc.map Prod.fst := by
  rcases List.mem_map.mp hx with ⟨p, hp, rfl⟩
  exact List.mem_map.mpr ⟨p, hle.2.1.subset hp, rfl⟩

theorem cmapTargets_mono {s1 s2 : CloneSt} (hle : stLe s1 s2) {x : Nat}
    (hx : x ∈ s1.cmap.map Prod.snd) : x ∈ s2.cmap.map Prod.snd := by
  rcases List.mem_map.mp hx with ⟨p, hp, rfl⟩
  exact List.mem_map.mpr ⟨p, hle.2.2.subset hp, rfl⟩

theorem covered_mono {s1 s2 : CloneSt} (hle : stLe s1 s2) {x : Nat}
    (hx : covered s1 x) : covered s2 x := by
  rcases hx with h1 | h1
  · exact Or.inl (accKeys_mono hle h1)
  · exact Or.inr (cmapTargets_mono hle h1)

theorem cloneVal_mono {h : Heap} {lo hi1 hi2 : Nat} (hh : hi1 ≤ hi2) {v : JSVal}
    (hv : cloneVal h lo hi1 v) : cloneVal h lo hi2 v := by
  cases v <;> simp only [cloneVal] at hv ⊢
  rcases hv with h1 | ⟨h1, h2⟩
  · exact Or.inl h1
  · exact Or.inr ⟨h1, by omega⟩

theorem entryCov_mono {s1 s2 : CloneSt} {lo : Nat} {od : ObjData}
    (hle : stLe s1 s2) (hcov : entryCov s1 lo od) : entryCov s2 lo od :=
  fun v hv x hx hlo => covered_mono hle (hcov v hv x hx hlo)

theorem lookup_cmap_mem {m : List (Nat × Nat)} {j d : Nat}
    (hl : m.lookup j = some d) : (j, d) ∈ m := by
  induction m with
  | nil => cases hl
  | cons p rest ih =>
    simp only [List.lookup] at hl
    rcases hjk : (j == p.1) with _ | _
    · rw [hjk] at hl
      exact List.mem_cons_of_mem _ (ih hl)
    · rw [hjk] at hl
      injection hl with hl
      have hj : j = p.1 := by simpa using hjk
      have hp : (j, d) = p := by cases p; simp_all
      rw [hp]
      exact List.mem_cons_self _ _

theorem stMapM_post {α β : Type} (h : Heap) (lo : Nat)
    (step : α → CloneSt → Option (β × CloneSt))
    (Q : β → CloneSt → Prop) (W : α → Prop)
    (hQmono : ∀ y s1 s2, stLe s1 s2 → Q y s1 → Q y s2)
    (hstep : ∀ x s r, W x → step x s = some r → StInv h lo s →
      StInv h lo r.2 ∧ stLe s r.2 ∧ Q r.1 r.2 ∧
      (∀ p ∈ r.2.cmap, p ∈ s.cmap ∨ p.2 ∈ r.2.acc.map Prod.fst)) :
    ∀ xs s res, (∀ x ∈ xs, W x) → stMapM step xs s = some res → StInv h lo s →
      StInv h lo res.2 ∧ stLe s res.2 ∧ (∀ y ∈ res.1, Q y res.2) ∧
      (∀ p ∈ res.2.cmap, p ∈ s.cmap ∨ p.2 ∈ res.2.acc.map Prod.fst) := by
  intro xs
  induction xs with
  | nil =>
    intro s res _ hres hinv
    simp only [stMapM] at hres
    injection hres with hres
    subst hres
    exact ⟨hinv, stLe_refl s, fun y hy => by simp at hy, fun p hp => Or.inl hp⟩
  | cons x xs ih =>
    intro s res hW hres hinv
    simp only [stMapM] at hres
    rcases hs : step x s with _ | ⟨y, s1⟩
    · rw [hs] at hres; exact absurd hres (by simp)
    · rw [hs] at hres
      dsimp only at hres
      rcases hr2 : stMapM step xs s1 with _ | ⟨ys, s2⟩
      · rw [hr2] at hres; exact absurd hres (by simp)
      · rw [hr2] at hres
        injection hres with hres
        subst hres
        have hst1 := hstep x s (y, s1) (hW x (List.mem_cons_self _ _)) hs hinv
        have hrec := ih s1 (ys, s2) (fun z hz => hW z (List.mem_cons_of_mem _ hz))
          hr2 hst1.1
        refine ⟨hrec.1, stLe_trans hst1.2.1 hrec.2.1, ?_, ?_⟩
        · intro y' hy'
          rcases List.mem_cons.mp hy' with rfl | hys
          · exact hQmono y' s1 s2 hrec.2.1 hst1.2.2.1
          · exact hrec.2.2.1 y' hys
        · intro p hp
          rcases hrec.2.2.2 p hp with hp1 | hacc
          · rcases hst1.2.2.2 p hp1 with hp0 | hacc1
            · exact Or.inl hp0
            · exact Or.inr (accKeys_mono hrec.2.1 hacc1)
          · exact Or.inr hacc

theorem cloneValCov_mono {h : Heap} {lo : Nat} {v : JSVal} {s1 s2 : CloneSt}
    (hle : stLe s1 s2) (hv : cloneValCov h lo v s1) : cloneValCov h lo v s2 :=
  ⟨cloneVal_mono hle.1 hv.1, fun x hx hlo => covered_mono hle (hv.2 x hx hlo)⟩

theorem heapWF_child {h : Heap} (hwf : heapWF h = true) {a : Nat} {od : ObjData}
    (hlk : lookupA a h.objs = some od) {v : JSVal} (hv : v ∈ entryVals od) :
    refWF h v := by
  intro x hx
  subst hx
  have hmem := lookupA_mem_of_some hlk
  have h1 := (List.all_eq_true.mp hwf) (a, od) hmem
  have h2 := (List.all_eq_true.mp h1) (.vRef x) hv
  simpa using h2

theorem stLe_reserve (st : CloneSt) (a : Nat) :
    stLe st ⟨(a, st.fresh) :: st.cmap, st.acc, st.fresh + 1⟩ :=
  ⟨by dsimp only; omega, List.suffix_refl _, List.suffix_cons _ _⟩

theorem StInv_reserve {h : Heap} {lo : Nat} {st : CloneSt}
    (hinv : StInv h lo st) (a : Nat) :
    StInv h lo ⟨(a, st.fresh) :: st.cmap, st.acc, st.fresh + 1⟩ := by
  obtain ⟨h1, h2, h3, h4⟩ := hinv
  unfold StInv
  dsimp only
  refine ⟨by omega, ?_, ?_, ?_⟩
  · intro p hp
    rcases List.mem_cons.mp hp with rfl | hp'
    · exact ⟨h1, by omega⟩
    · have := h2 p hp'
      exact ⟨this.1, by omega⟩
  · intro q hq
    have := h3 q hq
    exact ⟨this.1, by omega⟩
  · intro q hq
    obtain ⟨hv, hs, hc⟩ := h4 q hq
    exact ⟨fun v hvm => cloneVal_mono (by omega) (hv v hvm), hs,
      entryCov_mono (stLe_reserve st a) hc⟩

theorem stLe_commit (s2 : CloneSt) (d : Nat) (od : ObjData) :
    stLe s2 ⟨s2.cmap, (d, od) :: s2.acc, s2.fresh⟩ :=
  ⟨le_refl _, List.suffix_cons _ _, List.suffix_refl _⟩

theorem StInv_commit {h : Heap} {lo : Nat} {s2 : CloneSt}
    (hinv : StInv h lo s2) {d : Nat} {od : ObjData}
    (hd1 : lo ≤ d) (hd2 : d < s2.fresh)
    (hvals : ∀ v ∈ entryVals od, cloneVal h lo s2.fresh v)
    (hshape : shapeOk od)
    (hcov : entryCov s2 lo od) :
    StInv h lo ⟨s2.cmap, (d, od) :: s2.acc, s2.fresh⟩ := by
  obtain ⟨h1, h2, h3, h4⟩ := hinv
  unfold StInv
  dsimp only
  refine ⟨h1, h2, ?_, ?_⟩
  · intro q hq
    rcases List.mem_cons.mp hq with rfl | hq'
    · exact ⟨hd1, hd2⟩
    · exact h3 q hq'
  · intro q hq
    rcases List.mem_cons.mp hq with rfl | hq'
    · exact ⟨hvals, hshape, entryCov_mono (stLe_commit s2 d od) hcov⟩
    · obtain ⟨hv, hs, hc⟩ := h4 q hq'
      exact ⟨hv, hs, entryCov_mono (stLe_commit s2 d od) hc⟩

theorem stLe_bump (st : CloneSt) (od : ObjData) :
    stLe st ⟨st.cmap, (st.fresh, od) :: st.acc, st.fresh + 1⟩ :=
  ⟨by dsimp only; omega, List.suffix_cons _ _, List.suffix_refl _⟩

theorem StInv_bump {h : Heap} {lo : Nat} {st : CloneSt}
    (hinv : StInv h lo st) {od : ObjData}
    (hvals : ∀ v ∈ entryVals od, cloneVal h lo st.fresh v)
    (hshape : shapeOk od)
    (hcov : entryCov st lo od) :
    StInv h lo ⟨st.cmap, (st.fresh, od) :: st.acc, st.fresh + 1⟩ := by
  obtain ⟨h1, h2, h3, h4⟩ := hinv
  unfold StInv
  dsimp only
  refine ⟨by omega, ?_, ?_, ?_⟩
  · intro p hp
    have := h2 p hp
    exact ⟨this.1, by omega⟩
  · intro q hq
    rcases List.mem_cons.mp hq with rfl | hq'
    · exact ⟨h1, by omega⟩
    · have := h3 q hq'
      exact ⟨this.1, by omega⟩
  · intro q hq
    rcases List.mem_cons.mp hq with rfl | hq'
    · exact ⟨fun v hv => cloneVal_mono (by omega) (hvals v hv), hshape,
        entryCov_mono (stLe_bump st od) hcov⟩
    · obtain ⟨hv, hs, hc⟩ := h4 q hq'
      exact ⟨fun v hvm => cloneVal_mono (by omega) (hv v hvm), hs,
        entryCov_mono (stLe_bump st od) hc⟩

/-- Main invariant of one `deepCloneF` call: on a heap whose addresses
all lie below `lo` and with no dangling references, a call that returns
preserves the clone-state invariant, only grows the state, and returns
a covered clone value. -/
theorem deepCloneF_post (h : Heap) (lo : Nat)
    (hlo : ∀ x, x ∈ domA h.objs → x < lo)
    (hwf : heapWF h = true) :
    ∀ fuel v st r, deepCloneF h fuel v st = some r → refWF h v →
      StInv h lo st → ClonePost h lo st r := by
  intro fuel
  induction fuel with
  | zero => intro v st r hres _ _; simp [deepCloneF] at hres
  | succ fuel ih =>
    intro v st r hres hvwf hinv
    unfold ClonePost
    have hstepElem : ∀ (x : JSVal) (s : CloneSt) (rr : JSVal × CloneSt), refWF h x →
        deepCloneF h fuel x s = some rr → StInv h lo s →
        StInv h lo rr.2 ∧ stLe s rr.2 ∧ cloneValCov h lo rr.1 rr.2 ∧
        (∀ p ∈ rr.2.cmap, p ∈ s.cmap ∨ p.2 ∈ rr.2.acc.map Prod.fst) := by
      intro x s rr hW hs hinv0
      obtain ⟨P1, P2, P3, P4, P5⟩ := ih x s rr hs hW hinv0
      exact ⟨P1, P2, ⟨P3, P4⟩, P5⟩
    cases v with
    | vNull =>
      simp only [deepCloneF] at hres
      injection hres with hres
      subst hres
      refine ⟨hinv, stLe_refl st, ?_, ?_, fun p hp => Or.inl hp⟩
      · exact trivial
      · intro x hx
        exact absurd hx (by simp)
    | vUndef =>
      simp only [deepCloneF] at hres
      injection hres with hres
      subst hres
      refine ⟨hinv, stLe_refl st, ?_, ?_, fun p hp => Or.inl hp⟩
      · exact trivial
      · intro x hx
        exact absurd hx (by simp)
    | vBoolV b =>
      simp only [deepCloneF] at hres
      injection hres with hres
      subst hres
      refine ⟨hinv, stLe_refl st, ?_, ?_, fun p hp => Or.inl hp⟩
      · exact trivial
      · intro x hx
        exact absurd hx (by simp)
    | vNum n =>
      simp only [deepCloneF] at hres
      injection hres with hres
      subst hres
      refine ⟨hinv, stLe_refl st, ?_, ?_, fun p hp => Or.inl hp⟩
      · exact trivial
      · intro x hx
        exact absurd hx (by simp)
    | vBig n =>
      simp only [deepCloneF] at hres
      injection hres with hres
      subst hres
      refine ⟨hinv, stLe_refl st, ?_, ?_, fun p hp => Or.inl hp⟩
      · exact trivial
      · intro x hx
        exact absurd hx (by simp)
    | vStr s =>
      simp only [deepCloneF] at hres
      injection hres with hres
      subst hres
      refine ⟨hinv, stLe_refl st, ?_, ?_, fun p hp => Or.inl hp⟩
      · exact trivial
      · intro x hx
        exact absurd hx (by simp)
    | vSym i =>
      simp only [deepCloneF] at hres
      injection hres with hres
      subst hres
      refine ⟨hinv, stLe_refl st, ?_, ?_, fun p hp => Or.inl hp⟩
      · exact trivial
      · intro x hx
        exact absurd hx (by simp)
    | vRef a =>
      simp only [deepCloneF] at hres
      rcases hlk : lookupA a h.objs with _ | od
      · have hdang := hvwf a rfl
        rw [hlk] at hdang
        simp at hdang
      · rw [hlk] at hres
        have hadom : a ∈ domA h.objs := lookupA_isSome_iff_mem.mp (by rw [hlk]; rfl)
        cases od with
        | funcObj sp sy =>
          dsimp only at hres
          injection hres with hres
          subst hres
          have hfa : isFuncAddr h.objs a = true := by
            unfold isFuncAddr
            rw [hlk]
          refine ⟨hinv, stLe_refl st, ?_, ?_, fun p hp => Or.inl hp⟩
          · simp only [cloneVal]
            exact Or.inl hfa
          · intro x hx hlox
            injection hx with hx
            subst hx
            exact absurd hlox (by have := hlo a hadom; omega)
        | dateObj t =>
          dsimp only at hres
          rcases hm : st.cmap.lookup a with _ | d
          all_goals rw [hm] at hres
          all_goals dsimp only at hres
          all_goals injection hres with hres
          all_goals subst hres
          · refine ⟨StInv_bump hinv (by simp [entryVals]) trivial
              (by intro v hv; simp [entryVals] at hv), stLe_bump st _, ?_, ?_, ?_⟩
            · simp only [cloneVal]
              exact Or.inr ⟨hinv.1, by omega⟩
            · intro x hx hlox
              injection hx with hx
              subst hx
              exact Or.inl (List.mem_map.mpr ⟨(st.fresh, .dateObj t), by simp, rfl⟩)
            · intro p hp
              exact Or.inl hp
          · have hmem := lookup_cmap_mem hm
            refine ⟨hinv, stLe_refl st, ?_, ?_, fun p hp => Or.inl hp⟩
            · simp only [cloneVal]
              exact Or.inr ⟨(hinv.2.1 (a, d) hmem).1, (hinv.2.1 (a, d) hmem).2⟩
            · intro x hx hlox
              injection hx with hx
              subst hx
              exact Or.inr (List.mem_map.mpr ⟨(a, d), hmem, rfl⟩)
        | regexpObj src fl =>
          dsimp only at hres
          rcases hm : st.cmap.lookup a with _ | d
          all_goals rw [hm] at hres
          all_goals dsimp only at hres
          all_goals injection hres with hres
          all_goals subst hres
          · refine ⟨StInv_bump hinv (by simp [entryVals]) trivial
              (by intro v hv; simp [entryVals] at hv), stLe_bump st _, ?_, ?_, ?_⟩
            · simp only [cloneVal]
              exact Or.inr ⟨hinv.1, by omega⟩
            · intro x hx hlox
              injection hx with hx
              subst hx
              exact Or.inl (List.mem_map.mpr ⟨(st.fresh, .regexpObj src fl), by simp, rfl⟩)
            · intro p hp
              exact Or.inl hp
          · have hmem := lookup_cmap_mem hm
            refine ⟨hinv, stLe_refl st, ?_, ?_, fun p hp => Or.inl hp⟩
            · simp only [cloneVal]
              exact Or.inr ⟨(hinv.2.1 (a, d) hmem).1, (hinv.2.1 (a, d) hmem).2⟩
            · intro x hx hlox
              injection hx with hx
              subst hx
              exact Or.inr (List.mem_map.mpr ⟨(a, d), hmem, rfl⟩)
        | arrObj elems =>
          dsimp only at hres
          rcases hm : st.cmap.lookup a with _ | d
          all_goals rw [hm] at hres
          all_goals dsimp only at hres
          · rcases hmm : stMapM (deepCloneF h fuel) elems
                ⟨(a, st.fresh) :: st.cmap, st.acc, st.fresh + 1⟩ with _ | ⟨elems', s2⟩
            · rw [hmm] at hres; exact absurd hres (by simp)
            · rw [hmm] at hres
              simp only [Option.map_some'] at hres
              injection hres with hres
              subst hres
              have hpost := stMapM_post h lo (deepCloneF h fuel)
                (fun y s => cloneValCov h lo y s) (refWF h)
                (fun y s1 s2 hle hq => cloneValCov_mono hle hq)
                (fun x s rr hW hs hinv0 => hstepElem x s rr hW hs hinv0)
                elems _ (elems', s2)
                (fun x hx => heapWF_child hwf hlk hx)
                hmm (StInv_reserve hinv a)
              obtain ⟨Hinv2, Hle2, HQ, Hprov⟩ := hpost
              dsimp only at Hinv2 Hle2 HQ Hprov
              have hfr2 : st.fresh + 1 ≤ s2.fresh := Hle2.1
              have hloFresh : lo ≤ st.fresh := hinv.1
              refine ⟨?_, ?_, ?_, ?_, ?_⟩
              · exact StInv_commit Hinv2 hloFresh (by omega)
                  (fun v hv => (HQ v hv).1)
                  trivial
                  (fun v hv x hx hlox => (HQ v hv).2 x hx hlox)
              · exact stLe_trans (stLe_reserve st a)
                  (stLe_trans Hle2 (stLe_commit s2 _ _))
              · simp only [cloneVal]
                exact Or.inr ⟨hloFresh, by omega⟩
              · intro x hx hlox
                injection hx with hx
                subst hx
                exact Or.inl (List.mem_map.mpr ⟨(st.fresh, .arrObj elems'), by simp, rfl⟩)
              · intro p hp
                dsimp only at hp
                rcases Hprov p hp with hp1 | hacc
                · rcases List.mem_cons.mp hp1 with rfl | hp0
                  · exact Or.inr (List.mem_map.mpr ⟨(st.fresh, .arrObj elems'), by simp, rfl⟩)
                  · exact Or.inl hp0
                · rcases List.mem_map.mp hacc with ⟨q, hq, hq2⟩
                  exact Or.inr (List.mem_map.mpr ⟨q, List.mem_cons_of_mem _ hq, hq2⟩)
          · injection hres with hres
            subst hres
            have hmem := lookup_cmap_mem hm
            refine ⟨hinv, stLe_refl st, ?_, ?_, fun p hp => Or.inl hp⟩
            · simp only [cloneVal]
              exact Or.inr ⟨(hinv.2.1 (a, d) hmem).1, (hinv.2.1 (a, d) hmem).2⟩
            · intro x hx hlox
              injection hx with hx
              subst hx
              exact Or.inr (List.mem_map.mpr ⟨(a, d), hmem, rfl⟩)
        | setObj elems =>
          dsimp only at hres
          rcases hm : st.cmap.lookup a with _ | d
          all_goals rw [hm] at hres
          all_goals dsimp only at hres
          · rcases hmm : stMapM (deepCloneF h fuel) elems
                ⟨(a, st.fresh) :: st.cmap, st.acc, st.fresh + 1⟩ with _ | ⟨elems', s2⟩
            · rw [hmm] at hres; exact absurd hres (by simp)
            · rw [hmm] at hres
              simp only [Option.map_some'] at hres
              injection hres with hres
              subst hres
              have hpost := stMapM_post h lo (deepCloneF h fuel)
                (fun y s => cloneValCov h lo y s) (refWF h)
                (fun y s1 s2 hle hq => cloneValCov_mono hle hq)
                (fun x s rr hW hs hinv0 => hstepElem x s rr hW hs hinv0)
                elems _ (elems', s2)
                (fun x hx => heapWF_child hwf hlk hx)
                hmm (StInv_reserve hinv a)
              obtain ⟨Hinv2, Hle2, HQ, Hprov⟩ := hpost
              dsimp only at Hinv2 Hle2 HQ Hprov
              have hfr2 : st.fresh + 1 ≤ s2.fresh := Hle2.1
              have hloFresh : lo ≤ st.fresh := hinv.1
              refine ⟨?_, ?_, ?_, ?_, ?_⟩
              · exact StInv_commit Hinv2 hloFresh (by omega)
                  (fun v hv => (HQ v hv).1)
                  trivial
                  (fun v hv x hx hlox => (HQ v hv).2 x hx hlox)
              · exact stLe_trans (stLe_reserve st a)
                  (stLe_trans Hle2 (stLe_commit s2 _ _))
              · simp only [cloneVal]
                exact Or.inr ⟨hloFresh, by omega⟩
              · intro x hx hlox
                injection hx with hx
                subst hx
                exact Or.inl (List.mem_map.mpr ⟨(st.fresh, .setObj elems'), by simp, rfl⟩)
              · intro p hp
                dsimp only at hp
                rcases Hprov p hp with hp1 | hacc
                · rcases List.mem_cons.mp hp1 with rfl | hp0
                  · exact Or.inr (List.mem_map.mpr ⟨(st.fresh, .setObj elems'), by simp, rfl⟩)
                  · exact Or.inl hp0
                · rcases List.mem_map.mp hacc with ⟨q, hq, hq2⟩
                  exact Or.inr (List.mem_map.mpr ⟨q, List.mem_cons_of_mem _ hq, hq2⟩)
          · injection hres with hres
            subst hres
            have hmem := lookup_cmap_mem hm
            refine ⟨hinv, stLe_refl st, ?_, ?_, fun p hp => Or.inl hp⟩
            · simp only [cloneVal]
              exact Or.inr ⟨(hinv.2.1 (a, d) hmem).1, (hinv.2.1 (a, d) hmem).2⟩
            · intro x hx hlox
              injection hx with hx
              subst hx
              exact Or.inr (List.mem_map.mpr ⟨(a, d), hmem, rfl⟩)
        | mapObj entries =>
          dsimp only at hres
          rcases hm : st.cmap.lookup a with _ | d
          all_goals rw [hm] at hres
          all_goals dsimp only at hres
          · rcases hmm : stMapM
                (fun kv st0 =>
                  match deepCloneF h fuel kv.1 st0 with
                  | none => none
                  | some (k', st1) =>
                    match deepCloneF h fuel kv.2 st1 with
                    | none => none
                    | some (v', st2) => some ((k', v'), st2))
                entries ⟨(a, st.fresh) :: st.cmap, st.acc, st.fresh + 1⟩ with
                _ | ⟨entries', s2⟩
            · rw [hmm] at hres; exact absurd hres (by simp)
            · rw [hmm] at hres
              simp only [Option.map_some'] at hres
              injection hres with hres
              subst hres
              have hpost := stMapM_post h lo _
                (fun (y : JSVal × JSVal) s =>
                  cloneValCov h lo y.1 s ∧ cloneValCov h lo y.2 s)
                (fun (kv : JSVal × JSVal) => refWF h kv.1 ∧ refWF h kv.2)
                (fun y s1 s2 hle hq =>
                  ⟨cloneValCov_mono hle hq.1, cloneValCov_mono hle hq.2⟩)
                (by
                  intro kv s rr hW hs hinv0
                  rcases h1 : deepCloneF h fuel kv.1 s with _ | ⟨k1, s1⟩
                  · rw [h1] at hs; exact absurd hs (by simp)
                  · rw [h1] at hs
                    dsimp only at hs
                    rcases h2 : deepCloneF h fuel kv.2 s1 with _ | ⟨v2, sB⟩
                    · rw [h2] at hs; exact absurd hs (by simp)
                    · rw [h2] at hs
                      dsimp only at hs
                      injection hs with hs
                      subst hs
                      obtain ⟨A1, A2, A3, A4⟩ := hstepElem kv.1 s (k1, s1) hW.1 h1 hinv0
                      obtain ⟨B1, B2, B3, B4⟩ := hstepElem kv.2 s1 (v2, sB) hW.2 h2 A1
                      refine ⟨B1, stLe_trans A2 B2,
                        ⟨cloneValCov_mono B2 A3, B3⟩, ?_⟩
                      intro p hp
                      rcases B4 p hp with hp1 | hacc
                      · rcases A4 p hp1 with hp0 | hacc1
                        · exact Or.inl hp0
                        · exact Or.inr (accKeys_mono B2 hacc1)
                      · exact Or.inr hacc)
                entries _ (entries', s2)
                (by
                  intro kv hkv
                  constructor
                  · exact heapWF_child hwf hlk
                      (List.mem_flatMap.mpr ⟨kv, hkv, by simp⟩)
                  · exact heapWF_child hwf hlk
                      (List.mem_flatMap.mpr ⟨kv, hkv, by simp⟩))
                hmm (StInv_reserve hinv a)
              obtain ⟨Hinv2, Hle2, HQ, Hprov⟩ := hpost
              dsimp only at Hinv2 Hle2 HQ Hprov
              have hfr2 : st.fresh + 1 ≤ s2.fresh := Hle2.1
              have hloFresh : lo ≤ st.fresh := hinv.1
              refine ⟨?_, ?_, ?_, ?_, ?_⟩
              · refine StInv_commit Hinv2 hloFresh (by omega) ?_ trivial ?_
                · intro v hv
                  rcases List.mem_flatMap.mp hv with ⟨kv, hkv, hvin⟩
                  rcases List.mem_cons.mp hvin with rfl | hvin'
                  · exact (HQ kv hkv).1.1
                  · rcases List.mem_cons.mp hvin' with rfl | hvin''
                    · exact (HQ kv hkv).2.1
                    · simp at hvin''
                · intro v hv x hx hlox
                  rcases List.mem_flatMap.mp hv with ⟨kv, hkv, hvin⟩
                  rcases List.mem_cons.mp hvin with rfl | hvin'
                  · exact (HQ kv hkv).1.2 x hx hlox
                  · rcases List.mem_cons.mp hvin' with rfl | hvin''
                    · exact (HQ kv hkv).2.2 x hx hlox
                    · simp at hvin''
              · exact stLe_trans (stLe_reserve st a)
                  (stLe_trans Hle2 (stLe_commit s2 _ _))
              · simp only [cloneVal]
                exact Or.inr ⟨hloFresh, by omega⟩
              · intro x hx hlox
                injection hx with hx
                subst hx
                exact Or.inl (List.mem_map.mpr ⟨(st.fresh, .mapObj entries'), by simp, rfl⟩)
              · intro p hp
                dsimp only at hp
                rcases Hprov p hp with hp1 | hacc
                · rcases List.mem_cons.mp hp1 with rfl | hp0
                  · exact Or.inr (List.mem_map.mpr ⟨(st.fresh, .mapObj entries'), by simp, rfl⟩)
                  · exact Or.inl hp0
                · rcases List.mem_map.mp hacc with ⟨q, hq, hq2⟩
                  exact Or.inr (List.mem_map.mpr ⟨q, List.mem_cons_of_mem _ hq, hq2⟩)
          · injection hres with hres
            subst hres
            have hmem := lookup_cmap_mem hm
            refine ⟨hinv, stLe_refl st, ?_, ?_, fun p hp => Or.inl hp⟩
            · simp only [cloneVal]
              exact Or.inr ⟨(hinv.2.1 (a, d) hmem).1, (hinv.2.1 (a, d) hmem).2⟩
            · intro x hx hlox
              injection hx with hx
              subst hx
              exact Or.inr (List.mem_map.mpr ⟨(a, d), hmem, rfl⟩)
        | plainObj protoNull sprops symprops =>
          dsimp only at hres
          rcases hm : st.cmap.lookup a with _ | d
          all_goals rw [hm] at hres
          all_goals dsimp only at hres
          · rcases hmm1 : stMapM
                (fun p st0 =>
                  (deepCloneF h fuel p.value st0).map
                    (fun r => ((⟨p.name, true, r.1⟩ : StrProp), r.2)))
                (sprops.filter (·.enumerable))
                ⟨(a, st.fresh) :: st.cmap, st.acc, st.fresh + 1⟩ with _ | ⟨sprops', sMid⟩
            · rw [hmm1] at hres; exact absurd hres (by simp)
            · rw [hmm1] at hres
              dsimp only at hres
              rcases hmm2 : stMapM
                  (fun sv st0 =>
                    (deepCloneF h fuel sv.2 st0).map (fun r => ((sv.1, r.1), r.2)))
                  symprops sMid with _ | ⟨symprops', s2⟩
              · rw [hmm2] at hres; exact absurd hres (by simp)
              · rw [hmm2] at hres
                simp only [Option.map_some'] at hres
                injection hres with hres
                subst hres
                have hpost1 := stMapM_post h lo _
                  (fun (p : StrProp) s => p.enumerable = true ∧
                    cloneValCov h lo p.value s)
                  (fun (p : StrProp) => refWF h p.value)
                  (fun y s1 s2 hle hq => ⟨hq.1, cloneValCov_mono hle hq.2⟩)
                  (by
                    intro p s rr hW hs hinv0
                    rcases h1 : deepCloneF h fuel p.value s with _ | ⟨v1, s1⟩
                    · rw [h1] at hs; exact absurd hs (by simp)
                    · rw [h1] at hs
                      simp only [Option.map_some'] at hs
                      injection hs with hs
                      subst hs
                      obtain ⟨A1, A2, A3, A4⟩ := hstepElem p.value s (v1, s1) hW h1 hinv0
                      exact ⟨A1, A2, ⟨rfl, A3⟩, A4⟩)
                  (sprops.filter (·.enumerable)) _ (sprops', sMid)
                  (by
                    intro p hp
                    exact heapWF_child hwf hlk
                      (List.mem_append_left _
                        (List.mem_map.mpr ⟨p, List.mem_of_mem_filter hp, rfl⟩)))
                  hmm1 (StInv_reserve hinv a)
                obtain ⟨Hinv1, Hle1, HQ1, Hprov1⟩ := hpost1
                dsimp only at Hinv1 Hle1 HQ1 Hprov1
                have hpost2 := stMapM_post h lo _
                  (fun (sv : Nat × JSVal) s => cloneValCov h lo sv.2 s)
                  (fun (sv : Nat × JSVal) => refWF h sv.2)
                  (fun y s1 s2 hle hq => cloneValCov_mono hle hq)
                  (by
                    intro sv s rr hW hs hinv0
                    rcases h1 : deepCloneF h fuel sv.2 s with _ | ⟨v1, s1⟩
                    · rw [h1] at hs; exact absurd hs (by simp)
                    · rw [h1] at hs
                      simp only [Option.map_some'] at hs
                      injection hs with hs
                      subst hs
                      obtain ⟨A1, A2, A3, A4⟩ := hstepElem sv.2 s (v1, s1) hW h1 hinv0
                      exact ⟨A1, A2, A3, A4⟩)
                  symprops _ (symprops', s2)
                  (by
                    intro sv hsv
                    exact heapWF_child hwf hlk
                      (List.mem_append_right _ (List.mem_map.mpr ⟨sv, hsv, rfl⟩)))
                  hmm2 Hinv1
                obtain ⟨Hinv2, Hle2, HQ2, Hprov2⟩ := hpost2
                dsimp only at Hinv2 Hle2 HQ2 Hprov2
                have hfr2 : st.fresh + 1 ≤ s2.fresh := le_trans Hle1.1 Hle2.1
                have hloFresh : lo ≤ st.fresh := hinv.1
                refine ⟨?_, ?_, ?_, ?_, ?_⟩
                · refine StInv_commit Hinv2 hloFresh (by omega) ?_ ?_ ?_
                  · intro v hv
                    rcases List.mem_append.mp hv with hv1 | hv1
                    · rcases List.mem_map.mp hv1 with ⟨p, hp, rfl⟩
                      exact (cloneValCov_mono Hle2 (HQ1 p hp).2).1
                    · rcases List.mem_map.mp hv1 with ⟨sv, hsv, rfl⟩
                      exact (HQ2 sv hsv).1
                  · intro p hp
                    exact (HQ1 p hp).1
                  · intro v hv x hx hlox
                    rcases List.mem_append.mp hv with hv1 | hv1
                    · rcases List.mem_map.mp hv1 with ⟨p, hp, rfl⟩
                      exact (cloneValCov_mono Hle2 (HQ1 p hp).2).2 x hx hlox
                    · rcases List.mem_map.mp hv1 with ⟨sv, hsv, rfl⟩
                      exact (HQ2 sv hsv).2 x hx hlox
                · exact stLe_trans (stLe_reserve st a)
                    (stLe_trans Hle1 (stLe_trans Hle2 (stLe_commit s2 _ _)))
                · simp only [cloneVal]
                  exact Or.inr ⟨hloFresh, by omega⟩
                · intro x hx hlox
                  injection hx with hx
                  subst hx
                  exact Or.inl (List.mem_map.mpr
                    ⟨(st.fresh, .plainObj protoNull sprops' symprops'), by simp, rfl⟩)
                · intro p hp
                  dsimp only at hp
                  rcases Hprov2 p hp with hp2 | hacc
                  · rcases Hprov1 p hp2 with hp1 | hacc1
                    · rcases List.mem_cons.mp hp1 with rfl | hp0
                      · exact Or.inr (List.mem_map.mpr
                          ⟨(st.fresh, .plainObj protoNull sprops' symprops'), by simp, rfl⟩)
                      · exact Or.inl hp0
                    · rcases List.mem_map.mp (accKeys_mono Hle2 hacc1) with ⟨q, hq, hq2⟩
                      exact Or.inr (List.mem_map.mpr ⟨q, List.mem_cons_of_mem _ hq, hq2⟩)
                  · rcases List.mem_map.mp hacc with ⟨q, hq, hq2⟩
                    exact Or.inr (List.mem_map.mpr ⟨q, List.mem_cons_of_mem _ hq, hq2⟩)
          · injection hres with hres
            subst hres
            have hmem := lookup_cmap_mem hm
            refine ⟨hinv, stLe_refl st, ?_, ?_, fun p hp => Or.inl hp⟩
            · simp only [cloneVal]
              exact Or.inr ⟨(hinv.2.1 (a, d) hmem).1, (hinv.2.1 (a, d) hmem).2⟩
            · intro x hx hlox
              injection hx with hx
              subst hx
              exact Or.inr (List.mem_map.mpr ⟨(a, d), hmem, rfl⟩)
        | customObj protoId sprops symprops =>
          dsimp only at hres
          rcases hm : st.cmap.lookup a with _ | d
          all_goals rw [hm] at hres
          all_goals dsimp only at hres
          · rcases hmm1 : stMapM
                (fun p st0 =>
                  (deepCloneF h fuel p.value st0).map
                    (fun r => ((⟨p.name, p.enumerable, r.1⟩ : StrProp), r.2)))
                sprops ⟨(a, st.fresh) :: st.cmap, st.acc, st.fresh + 1⟩ with
                _ | ⟨sprops', sMid⟩
            · rw [hmm1] at hres; exact absurd hres (by simp)
            · rw [hmm1] at hres
              dsimp only at hres
              rcases hmm2 : stMapM
                  (fun sv st0 =>
                    (deepCloneF h fuel sv.2 st0).map (fun r => ((sv.1, r.1), r.2)))
                  symprops sMid with _ | ⟨symprops', s2⟩
              · rw [hmm2] at hres; exact absurd hres (by simp)
              · rw [hmm2] at hres
                simp only [Option.map_some'] at hres
                injection hres with hres
                subst hres
                have hpost1 := stMapM_post h lo _
                  (fun (p : StrProp) s => cloneValCov h lo p.value s)
                  (fun (p : StrProp) => refWF h p.value)
                  (fun y s1 s2 hle hq => cloneValCov_mono hle hq)
                  (by
                    intro p s rr hW hs hinv0
                    rcases h1 : deepCloneF h fuel p.value s with _ | ⟨v1, s1⟩
                    · rw [h1] at hs; exact absurd hs (by simp)
                    · rw [h1] at hs
                      simp only [Option.map_some'] at hs
                      injection hs with hs
                      subst hs
                      obtain ⟨A1, A2, A3, A4⟩ := hstepElem p.value s (v1, s1) hW h1 hinv0
                      exact ⟨A1, A2, A3, A4⟩)
                  sprops _ (sprops', sMid)
                  (by
                    intro p hp
                    exact heapWF_child hwf hlk
                      (List.mem_append_left _ (List.mem_map.mpr ⟨p, hp, rfl⟩)))
                  hmm1 (StInv_reserve hinv a)
                obtain ⟨Hinv1, Hle1, HQ1, Hprov1⟩ := hpost1
                dsimp only at Hinv1 Hle1 HQ1 Hprov1
                have hpost2 := stMapM_post h lo _
                  (fun (sv : Nat × JSVal) s => cloneValCov h lo sv.2 s)
                  (fun (sv : Nat × JSVal) => refWF h sv.2)
                  (fun y s1 s2 hle hq => cloneValCov_mono hle hq)
                  (by
                    intro sv s rr hW hs hinv0
                    rcases h1 : deepCloneF h fuel sv.2 s with _ | ⟨v1, s1⟩
                    · rw [h1] at hs; exact absurd hs (by simp)
                    · rw [h1] at hs
                      simp only [Option.map_some'] at hs
                      injection hs with hs
                      subst hs
                      obtain ⟨A1, A2, A3, A4⟩ := hstepElem sv.2 s (v1, s1) hW h1 hinv0
                      exact ⟨A1, A2, A3, A4⟩)
                  symprops _ (symprops', s2)
                  (by
                    intro sv hsv
                    exact heapWF_child hwf hlk
                      (List.mem_append_right _ (List.mem_map.mpr ⟨sv, hsv, rfl⟩)))
                  hmm2 Hinv1
                obtain ⟨Hinv2, Hle2, HQ2, Hprov2⟩ := hpost2
                dsimp only at Hinv2 Hle2 HQ2 Hprov2
                have hfr2 : st.fresh + 1 ≤ s2.fresh := le_trans Hle1.1 Hle2.1
                have hloFresh : lo ≤ st.fresh := hinv.1
                refine ⟨?_, ?_, ?_, ?_, ?_⟩
                · refine StInv_commit Hinv2 hloFresh (by omega) ?_ trivial ?_
                  · intro v hv
                    rcases List.mem_append.mp hv with hv1 | hv1
                    · rcases List.mem_map.mp hv1 with ⟨p, hp, rfl⟩
                      exact (cloneValCov_mono Hle2 (HQ1 p hp)).1
                    · rcases List.mem_map.mp hv1 with ⟨sv, hsv, rfl⟩
                      exact (HQ2 sv hsv).1
                  · intro v hv x hx hlox
                    rcases List.mem_append.mp hv with hv1 | hv1
                    · rcases List.mem_map.mp hv1 with ⟨p, hp, rfl⟩
                      exact (cloneValCov_mono Hle2 (HQ1 p hp)).2 x hx hlox
                    · rcases List.mem_map.mp hv1 with ⟨sv, hsv, rfl⟩
                      exact (HQ2 sv hsv).2 x hx hlox
                · exact stLe_trans (stLe_reserve st a)
                    (stLe_trans Hle1 (stLe_trans Hle2 (stLe_commit s2 _ _)))
                · simp only [cloneVal]
                  exact Or.inr ⟨hloFresh, by omega⟩
                · intro x hx hlox
                  injection hx with hx
                  subst hx
                  exact Or.inl (List.mem_map.mpr
                    ⟨(st.fresh, .customObj protoId sprops' symprops'), by simp, rfl⟩)
                · intro p hp
                  dsimp only at hp
                  rcases Hprov2 p hp with hp2 | hacc
                  · rcases Hprov1 p hp2 with hp1 | hacc1
                    · rcases List.mem_cons.mp hp1 with rfl | hp0
                      · exact Or.inr (List.mem_map.mpr
                          ⟨(st.fresh, .customObj protoId sprops' symprops'), by simp, rfl⟩)
                      · exact Or.inl hp0
                    · rcases List.mem_map.mp (accKeys_mono Hle2 hacc1) with ⟨q, hq, hq2⟩
                      exact Or.inr (List.mem_map.mpr ⟨q, List.mem_cons_of_mem _ hq, hq2⟩)
                  · rcases List.mem_map.mp hacc with ⟨q, hq, hq2⟩
                    exact Or.inr (List.mem_map.mpr ⟨q, List.mem_cons_of_mem _ hq, hq2⟩)
          · injection hres with hres
            subst hres
            have hmem := lookup_cmap_mem hm
            refine ⟨hinv, stLe_refl st, ?_, ?_, fun p hp => Or.inl hp⟩
            · simp only [cloneVal]
              exact Or.inr ⟨(hinv.2.1 (a, d) hmem).1, (hinv.2.1 (a, d) hmem).2⟩
            · intro x hx hlox
              injection hx with hx
              subst hx
              exact Or.inr (List.mem_map.mpr ⟨(a, d), hmem, rfl⟩)

/-! ## From the clone invariant to the frozen copy -/

theorem lt_freshA {h : Heap} {x : Nat} (hx : x ∈ domA h.objs) : x < freshA h := by
  unfold freshA
  suffices h2 : ∀ l : List Nat, x ∈ l → x ≤ l.foldr max 0 by
    have := h2 _ hx
    omega
  intro l hl
  induction l with
  | nil => cases hl
  | cons y ys ih =>
    simp only [List.foldr]
    rcases List.mem_cons.mp hl with rfl | h3
    · exact le_max_left _ _
    · exact le_trans (ih h3) (le_max_right _ _)

theorem freeze_objs_eq {h h' : Heap} {v : JSVal} (hs : freeze h v = some h') :
    h'.objs = h.objs := by
  cases v
  case vRef a =>
    simp only [freeze] at hs
    split at hs
    · injection hs with hs
      rw [← hs]
    · split at hs
      · exact absurd hs (by simp)
      · rcases hVF : freezeLoopF h.objs (freezeFuel h.objs [a]) [a] [] h.frozenA with
          _ | ⟨V, F⟩
        · rw [hVF] at hs
          exact absurd hs (by simp)
        · rw [hVF] at hs
          injection hs with hs
          rw [← hs]
  all_goals simp only [freeze] at hs
  all_goals injection hs with hs
  all_goals rw [← hs]

theorem freeze_frozen_mono {h h' : Heap} {v : JSVal} (hs : freeze h v = some h') :
    ∀ x ∈ h.frozenA, x ∈ h'.frozenA := by
  cases v
  case vRef a =>
    simp only [freeze] at hs
    split at hs
    · injection hs with hs
      rw [← hs]
      exact fun x hx => hx
    · split at hs
      · exact absurd hs (by simp)
      · rcases hVF : freezeLoopF h.objs (freezeFuel h.objs [a]) [a] [] h.frozenA with
          _ | ⟨V, F⟩
        · rw [hVF] at hs
          exact absurd hs (by simp)
        · rw [hVF] at hs
          injection hs with hs
          rw [← hs]
          intro x hx
          exact (freezeLoopF_mono h.objs (freezeFuel h.objs [a]) [a] [] h.frozenA
            V F hVF).2 x hx
  all_goals simp only [freeze] at hs
  all_goals injection hs with hs
  all_goals rw [← hs]
  all_goals exact fun x hx => hx

theorem freeze_frozen_provenance {h h' : Heap} {v : JSVal} (hs : freeze h v = some h') :
    ∀ b ∈ h'.frozenA, b ∈ h.frozenA ∨ ∃ a, v = .vRef a ∧ ReachP h.objs a b := by
  cases v
  case vRef a =>
    simp only [freeze] at hs
    split at hs
    · injection hs with hs
      rw [← hs]
      exact fun b hb => Or.inl hb
    · split at hs
      · exact absurd hs (by simp)
      · rcases hVF : freezeLoopF h.objs (freezeFuel h.objs [a]) [a] [] h.frozenA with
          _ | ⟨V, F⟩
        · rw [hVF] at hs
          exact absurd hs (by simp)
        · rw [hVF] at hs
          injection hs with hs
          rw [← hs]
          intro b hb
          rcases freezeLoopF_provenance h.objs (freezeFuel h.objs [a]) [a] [] h.frozenA
              V F hVF b hb with h1 | ⟨s, hsm, hr⟩
          · exact Or.inl h1
          · simp only [List.mem_singleton] at hsm
            subst hsm
            exact Or.inr ⟨s, rfl, hr⟩
  all_goals simp only [freeze] at hs
  all_goals injection hs with hs
  all_goals rw [← hs]
  all_goals exact fun b hb => Or.inl hb

theorem reachIF_objs_eq {h1 h2 : Heap} (ho : h1.objs = h2.objs) {v : JSVal} {b : Nat}
    (hr : ReachIF h1 v b) : ReachIF h2 v b := by
  induction hr with
  | here a => exact ReachIF.here a
  | child a od c b hlk hc hrec ih => exact ReachIF.child a od c b (ho ▸ hlk) hc ih

theorem reachIF_ref {h : Heap} {v : JSVal} {b : Nat} (hr : ReachIF h v b) :
    ∃ y, v = .vRef y := by
  cases hr with
  | here => exact ⟨_, rfl⟩
  | child => exact ⟨_, rfl⟩

theorem isFrozenChildren_sub_entryVals {od : ObjData} {c : JSVal}
    (hc : c ∈ isFrozenChildren od) : c ∈ entryVals od := by
  cases od with
  | arrObj es => exact hc
  | mapObj es => exact hc
  | setObj es => exact hc
  | plainObj pn sp sy => exact List.mem_append_left _ hc
  | customObj pid sp sy => exact List.mem_append_left _ hc
  | funcObj sp sy => exact List.mem_append_left _ hc
  | dateObj t => simp [isFrozenChildren] at hc
  | regexpObj s f => simp [isFrozenChildren] at hc

theorem freezeChildren_src {objs : List (Nat × ObjData)} {od : ObjData} {c : Nat}
    (hc : c ∈ freezeChildren objs od) :
    ∃ w, w ∈ entryVals od ∧ objRef? objs w = some c := by
  cases od with
  | arrObj es =>
    rcases List.mem_filterMap.mp hc with ⟨w, hw, hwo⟩
    exact ⟨w, hw, hwo⟩
  | mapObj es =>
    rcases List.mem_filterMap.mp hc with ⟨w, hw, hwo⟩
    exact ⟨w, hw, hwo⟩
  | setObj es =>
    rcases List.mem_filterMap.mp hc with ⟨w, hw, hwo⟩
    exact ⟨w, hw, hwo⟩
  | dateObj t => simp [freezeChildren] at hc
  | regexpObj s f => simp [freezeChildren] at hc
  | plainObj pn sp sy =>
    rcases List.mem_append.mp hc with h1 | h1
    · rcases List.mem_filterMap.mp h1 with ⟨w, hw, hwo⟩
      refine ⟨w, List.mem_append_left _ ?_, hwo⟩
      rcases List.mem_map.mp hw with ⟨p, hp, rfl⟩
      exact List.mem_map.mpr ⟨p, List.mem_of_mem_filter hp, rfl⟩
    · rcases List.mem_filterMap.mp h1 with ⟨w, hw, hwo⟩
      exact ⟨w, List.mem_append_right _ hw, hwo⟩
  | funcObj sp sy =>
    rcases List.mem_append.mp hc with h1 | h1
    · rcases List.mem_filterMap.mp h1 with ⟨w, hw, hwo⟩
      exact ⟨w, List.mem_append_left _ hw, hwo⟩
    · rcases List.mem_filterMap.mp h1 with ⟨w, hw, hwo⟩
      exact ⟨w, List.mem_append_right _ hw, hwo⟩
  | customObj pid sp sy =>
    rcases List.mem_append.mp hc with h1 | h1
    · rcases List.mem_filterMap.mp h1 with ⟨w, hw, hwo⟩
      exact ⟨w, List.mem_append_left _ hw, hwo⟩
    · rcases List.mem_filterMap.mp h1 with ⟨w, hw, hwo⟩
      exact ⟨w, List.mem_append_right _ hw, hwo⟩

theorem objRef_ref {objs : List (Nat × ObjData)} {w : JSVal} {c : Nat}
    (hw : objRef? objs w = some c) : w = .vRef c ∧ isFuncAddr objs c = false := by
  cases w with
  | vRef a =>
    simp only [objRef?] at hw
    split at hw
    · exact absurd hw (by simp)
    · rename_i hfn
      injection hw with hw
      subst hw
      exact ⟨rfl, by simpa using hfn⟩
  | vNull => exact absurd hw (by simp [objRef?])
  | vUndef => exact absurd hw (by simp [objRef?])
  | vBoolV b => exact absurd hw (by simp [objRef?])
  | vNum n => exact absurd hw (by simp [objRef?])
  | vBig n => exact absurd hw (by simp [objRef?])
  | vStr s => exact absurd hw (by simp [objRef?])
  | vSym i => exact absurd hw (by simp [objRef?])

theorem funcFree_isFuncAddr {h : Heap} (hff : funcFree h = true) (x : Nat) :
    isFuncAddr h.objs x = false := by
  unfold isFuncAddr
  rcases hlk : lookupA x h.objs with _ | od
  · rfl
  · cases od
    case funcObj sp sy =>
      have hmem := lookupA_mem_of_some hlk
      have h2 := (List.all_eq_true.mp hff) _ hmem
      simp at h2
    all_goals rfl

theorem filter_enumerable_eq {sp : List StrProp}
    (hall : ∀ p ∈ sp, p.enumerable = true) :
    sp.filter (·.enumerable) = sp :=
  List.filter_eq_self.mpr hall

theorem isFrozenChildren_to_freezeChildren {objs : List (Nat × ObjData)}
    {od : ObjData} {y : Nat} (hsh : shapeOk od)
    (hfn : isFuncAddr objs y = false)
    (hc : (.vRef y : JSVal) ∈ isFrozenChildren od) :
    y ∈ freezeChildren objs od := by
  have hobj : objRef? objs (.vRef y) = some y := by
    simp [objRef?, hfn]
  cases od with
  | arrObj es => exact List.mem_filterMap.mpr ⟨.vRef y, hc, hobj⟩
  | mapObj es => exact List.mem_filterMap.mpr ⟨.vRef y, hc, hobj⟩
  | setObj es => exact List.mem_filterMap.mpr ⟨.vRef y, hc, hobj⟩
  | dateObj t => simp [isFrozenChildren] at hc
  | regexpObj s f => simp [isFrozenChildren] at hc
  | funcObj sp sy => exact hsh.elim
  | plainObj pn sp sy =>
    refine List.mem_append_left _ (List.mem_filterMap.mpr ⟨.vRef y, ?_, hobj⟩)
    have heq : sp.filter (·.enumerable) = sp := filter_enumerable_eq hsh
    rw [heq]
    exact hc
  | customObj pid sp sy =>
    exact List.mem_append_left _ (List.mem_filterMap.mpr ⟨.vRef y, hc, hobj⟩)

/-- C5 (amended): on a graph with no dangling references, no callables,
a well-formed frozen set, and a non-dangling root, a `frozenCopy` call
that returns never mutates the source: every source object keeps its
entries and its single-level-frozen status (in particular the source
root is not frozen by the call).  The copy is independent — nothing the
deep-frozen predicate can reach from the returned root is a source
node — and the copy is deeply frozen.  (Without the no-callables
assumption the claim fails: see the counterexample.) -/
theorem frozenCopy_source_untouched_copy_frozen (h : Heap) (v : JSVal)
    (h' : Heap) (v' : JSVal)
    (hres : frozenCopy h v = some (h', v'))
    (hwf : heapWF h = true) (hff : funcFree h = true)
    (hwfr : wfFrozen h = true) (hroot : refWF h v) :
    (∀ a ∈ domA h.objs, lookupA a h'.objs = lookupA a h.objs) ∧
    (∀ a ∈ domA h.objs, (a ∈ h'.frozenA ↔ a ∈ h.frozenA)) ∧
    isShallowFrozen h' v = isShallowFrozen h v ∧
    (∀ b, ReachIF h' v' b → b ∉ domA h.objs) ∧
    isFrozenB h' v' = true := by
  unfold frozenCopy at hres
  rcases hclone : deepCloneF h (h.objs.length + 2) v ⟨[], [], freshA h⟩ with _ | ⟨v0, stF⟩
  · rw [hclone] at hres
    exact absurd hres (by simp)
  rw [hclone] at hres
  dsimp only at hres
  rcases hfz : freeze ⟨h.objs ++ stF.acc.reverse, h.frozenA⟩ v0 with _ | hF
  · rw [hfz] at hres
    exact absurd hres (by simp)
  rw [hfz] at hres
  dsimp only at hres
  injection hres with hres
  injection hres with hEq1 hEq2
  subst hEq1
  subst hEq2
  have hinv0 : StInv h (freshA h) ⟨[], [], freshA h⟩ := by
    unfold StInv
    dsimp only
    refine ⟨le_refl _, ?_, ?_, ?_⟩
    · intro p hp
      exact absurd hp (List.not_mem_nil p)
    · intro q hq
      exact absurd hq (List.not_mem_nil q)
    · intro q hq
      exact absurd hq (List.not_mem_nil q)
  have hpost := deepCloneF_post h (freshA h) (fun x hx => lt_freshA hx) hwf
    (h.objs.length + 2) v ⟨[], [], freshA h⟩ (v0, stF) hclone hroot hinv0
  obtain ⟨HinvF, HleF, Hval, Hcov, Hprov⟩ := hpost
  dsimp only at HinvF HleF Hval Hcov Hprov
  obtain ⟨Hfr, Hcmap, Haccb, Hacc⟩ := HinvF
  have hcovacc : ∀ x, covered stF x → x ∈ stF.acc.map Prod.fst := by
    intro x hx
    rcases hx with h1 | h1
    · exact h1
    · rcases List.mem_map.mp h1 with ⟨p, hp, rfl⟩
      rcases Hprov p hp with h2 | h2
      · exact nomatch h2
      · exact h2
  have hregion_lookup : ∀ x, x ∈ stF.acc.map Prod.fst →
      ∃ od, lookupA x (h.objs ++ stF.acc.reverse) = some od ∧ (x, od) ∈ stF.acc := by
    intro x hx
    have hxlo : freshA h ≤ x := by
      rcases List.mem_map.mp hx with ⟨q, hq, rfl⟩
      exact (Haccb q hq).1
    have hnone : lookupA x h.objs = none := by
      rcases hl : lookupA x h.objs with _ | od
      · rfl
      · have hdom : x ∈ domA h.objs := lookupA_isSome_iff_mem.mp (by rw [hl]; rfl)
        have := lt_freshA hdom
        omega
    rw [lookupA_append_right hnone]
    have hxr : x ∈ domA stF.acc.reverse := by
      unfold domA
      rw [List.map_reverse]
      exact List.mem_reverse.mpr hx
    have hsome := lookupA_isSome_iff_mem.mpr hxr
    rcases ho : lookupA x stF.acc.reverse with _ | od
    · rw [ho] at hsome
      simp at hsome
    · exact ⟨od, rfl, List.mem_reverse.mp (lookupA_mem_of_some ho)⟩
  have hfuncE : ∀ x, covered stF x →
      isFuncAddr (h.objs ++ stF.acc.reverse) x = false := by
    intro x hx
    rcases hregion_lookup x (hcovacc x hx) with ⟨od, hlk, hmem⟩
    have hshape := (Hacc (x, od) hmem).2.1
    unfold isFuncAddr
    rw [hlk]
    cases od
    case funcObj sp sy => exact hshape.elim
    all_goals rfl
  have hentry : ∀ x od, (x, od) ∈ stF.acc → ∀ w ∈ entryVals od, ∀ c, w = .vRef c →
      freshA h ≤ c ∧ covered stF c := by
    intro x od hmem w hw c hc
    have hcv := (Hacc (x, od) hmem).1 w hw
    subst hc
    simp only [cloneVal] at hcv
    rcases hcv with h1 | ⟨h1, h2⟩
    · rw [funcFree_isFuncAddr hff c] at h1
      exact absurd h1 (by simp)
    · exact ⟨h1, (Hacc (x, od) hmem).2.2 _ hw c rfl h1⟩
  have hrootv : ∀ x, v0 = .vRef x → freshA h ≤ x ∧ covered stF x := by
    intro x hx
    subst hx
    simp only [cloneVal] at Hval
    rcases Hval with h1 | ⟨h1, h2⟩
    · rw [funcFree_isFuncAddr hff x] at h1
      exact absurd h1 (by simp)
    · exact ⟨h1, Hcov x rfl h1⟩
  have key3 : ∀ w b, ReachIF ⟨h.objs ++ stF.acc.reverse, h.frozenA⟩ w b →
      (∀ x, w = .vRef x → freshA h ≤ x ∧ covered stF x) →
      freshA h ≤ b ∧ covered stF b := by
    intro w b hr
    induction hr with
    | here a => exact fun hw => hw a rfl
    | child a od c b hlk hc hrec ih =>
      intro hw
      obtain ⟨ha1, ha2⟩ := hw a rfl
      rcases hregion_lookup a (hcovacc a ha2) with ⟨od2, hlk2, hmem2⟩
      have hodeq : od = od2 := by
        have hlk3 : lookupA a (h.objs ++ stF.acc.reverse) = some od := hlk
        exact Option.some.inj (hlk3.symm.trans hlk2)
      subst hodeq
      have hwv := isFrozenChildren_sub_entryVals hc
      rcases reachIF_ref hrec with ⟨y, rfl⟩
      rcases hentry a od hmem2 _ hwv y rfl with ⟨hy1, hy3⟩
      exact ih (fun x hx => by injection hx with hx; subst hx; exact ⟨hy1, hy3⟩)
  have key4 : ∀ w b, ReachIF ⟨h.objs ++ stF.acc.reverse, h.frozenA⟩ w b →
      (∀ x, w = .vRef x → freshA h ≤ x ∧ covered stF x) →
      ∀ a, w = .vRef a → ReachU (h.objs ++ stF.acc.reverse) h.frozenA a b := by
    intro w b hr
    induction hr with
    | here a0 =>
      intro _ a ha
      injection ha with ha
      subst ha
      exact ReachU.refl _
    | child a0 od c b hlk hc hrec ih =>
      intro hw a ha
      injection ha with ha
      subst ha
      obtain ⟨h1, h2⟩ := hw a0 rfl
      rcases hregion_lookup a0 (hcovacc a0 h2) with ⟨od2, hlk2, hmem2⟩
      have hodeq : od = od2 := by
        have hlk3 : lookupA a0 (h.objs ++ stF.acc.reverse) = some od := hlk
        exact Option.some.inj (hlk3.symm.trans hlk2)
      subst hodeq
      have hwv := isFrozenChildren_sub_entryVals hc
      rcases reachIF_ref hrec with ⟨y, rfl⟩
      rcases hentry a0 od hmem2 _ hwv y rfl with ⟨hy1, hy3⟩
      have hnf : a0 ∉ h.frozenA := by
        intro hmemf
        have h4 := (List.all_eq_true.mp hwfr) a0 hmemf
        have hdom := lookupA_isSome_iff_mem.mp h4
        have := lt_freshA hdom
        omega
      have hcf : y ∈ freezeChildren (h.objs ++ stF.acc.reverse) od :=
        isFrozenChildren_to_freezeChildren ((Hacc (a0, od) hmem2).2.1)
          (hfuncE y hy3) hc
      exact ReachU.step a0 od y b hnf hlk2 hcf
        (ih (fun x hx => by injection hx with hx; subst hx; exact ⟨hy1, hy3⟩) y rfl)
  have key5 : ∀ s b, ReachP (h.objs ++ stF.acc.reverse) s b →
      freshA h ≤ s ∧ covered stF s → freshA h ≤ b ∧ covered stF b := by
    intro s b hr
    induction hr with
    | refl a => exact id
    | step a od c b hlk hc hrec ih =>
      rintro ⟨h1, h2⟩
      rcases hregion_lookup a (hcovacc a h2) with ⟨od2, hlk2, hmem2⟩
      have hodeq : od = od2 := Option.some.inj (hlk.symm.trans hlk2)
      subst hodeq
      rcases freezeChildren_src hc with ⟨w, hw, hwo⟩
      rcases objRef_ref hwo with ⟨rfl, hfn⟩
      rcases hentry a od hmem2 _ hw c rfl with ⟨hy1, hy3⟩
      exact ih ⟨hy1, hy3⟩
  have hobjs2 : hF.objs = h.objs ++ stF.acc.reverse := freeze_objs_eq hfz
  have c1 : ∀ a ∈ domA h.objs, lookupA a hF.objs = lookupA a h.objs := by
    intro a ha
    rw [hobjs2]
    exact lookupA_append_left (lookupA_isSome_iff_mem.mpr ha)
  have c2 : ∀ a ∈ domA h.objs, (a ∈ hF.frozenA ↔ a ∈ h.frozenA) := by
    intro a ha
    constructor
    · intro haf
      rcases freeze_frozen_provenance hfz a haf with h1 | ⟨a0, hv0, hrp⟩
      · exact h1
      · obtain ⟨h1, h2⟩ := hrootv a0 hv0
        have h3 := key5 a0 a hrp ⟨h1, h2⟩
        have h4 := lt_freshA ha
        exact absurd h3.1 (by omega)
    · intro haf
      exact freeze_frozen_mono hfz a haf
  refine ⟨c1, c2, ?_, ?_, ?_⟩
  · cases v
    case vRef r =>
      have hdom : r ∈ domA h.objs := lookupA_isSome_iff_mem.mp (hroot r rfl)
      simp only [isShallowFrozen]
      exact decide_eq_decide.mpr (c2 r hdom)
    all_goals rfl
  · intro b hb hdom
    have hbE : ReachIF ⟨h.objs ++ stF.acc.reverse, h.frozenA⟩ v0 b :=
      reachIF_objs_eq hobjs2 hb
    have hb2 := key3 v0 b hbE hrootv
    have := lt_freshA hdom
    omega
  · by_contra hfalse
    rw [Bool.not_eq_true] at hfalse
    rcases (isFrozenB_false_iff hF v0).mp hfalse with ⟨b, hb, hnfz⟩
    apply hnfz
    have hbE : ReachIF ⟨h.objs ++ stF.acc.reverse, h.frozenA⟩ v0 b :=
      reachIF_objs_eq hobjs2 hb
    have hb3 := key3 v0 b hbE hrootv
    rcases reachIF_ref hb with ⟨a0, rfl⟩
    have hru := key4 _ b hbE hrootv a0 rfl
    have hlkb : (lookupA b (h.objs ++ stF.acc.reverse)).isSome = true := by
      rcases hregion_lookup b (hcovacc b hb3.2) with ⟨od, hlk, _⟩
      rw [hlk]
      rfl
    exact freeze_covers_reachU ⟨h.objs ++ stF.acc.reverse, h.frozenA⟩ hF a0 hfz
      b hru hlkb

/-- C5 (witness): on `{a: 1, nested: {value: {}}}` the call returns the
clone at address 3 with clone region `{3, 4, 5}` frozen; the copy is
deeply frozen while the source root keeps its entries and stays
unfrozen. -/
theorem frozenCopy_source_untouched_copy_frozen_witness :
    isFrozenB hCopyClone (.vRef 3) = true ∧
    (0 ∈ hCopyClone.frozenA ↔ 0 ∈ hCopyEx.frozenA) ∧
    lookupA 0 hCopyClone.objs = lookupA 0 hCopyEx.objs := by
  have H := frozenCopy_source_untouched_copy_frozen hCopyEx (.vRef 0) hCopyClone
    (.vRef 3) (by decide) (by decide) (by decide) (by decide)
    (by intro x hx; injection hx with h2; subst h2; decide)
  exact ⟨H.2.2.2.2, H.2.1 0 (by decide), H.1 0 (by decide)⟩

/-- C5 (counterexample): with callables in the graph the claim fails.
`frozenCopy` of `{f: fn}` returns a copy that shares the callable and
that the deep-frozen predicate rejects, so `isFrozen(C)` is false; and
`frozenCopy` of a callable root passes the callable through by identity
and then freezes it in place, so the source root itself becomes
single-level frozen. -/
theorem frozenCopy_func_breaks_claim :
    (frozenCopy hFnProp (.vRef 0)).map (fun p => isFrozenB p.1 p.2) = some false ∧
    (frozenCopy hFnRoot (.vRef 0)).map
      (fun p => isShallowFrozen p.1 (.vRef 0)) = some true :=
  ⟨by decide, by decide⟩

end FlashFreeze
